import Mathlib

/-!
Verification of the flow-reactor control core.

Shallow embedding, over exact rational arithmetic, of:
  * the safety supervisor of `reactor_control_gui_v1.py`
    (`check_safety_conditions`, `trigger_safety_shutdown`,
    `check_flow_conditions`);
  * the ramp model of `temp_ramp.py` (`flex_arange`, `TempRamp.ramp_points`,
    `TempRamp.control_points`) and the setpoint scheduler of
    `temp_controller_manager.py` / `run_temp_control_loop`
    (`update_set_point`);
  * the ProPar codec of `mfc_controller.py` (`build_propar_message`,
    `parse_propar_response`) and the derived reads `get_current_flow`,
    `get_current_setpoint`;
  * the retried flow write of `instruments.py`
    (`SerialMFCController.set_flow`).

Python floats are modelled as rationals (the computations involved are
field operations, exact here); IEEE-754 float32 values that only travel
through the byte protocol are modelled by their 32-bit patterns; Python
exceptions in pure decode paths are modelled as `none` (callers catch every
exception and turn it into `None`/`False`).
-/

namespace FlowReactor

/-! ### Safety supervisor state (reactor_control_gui_v1.py)

The GUI object holds two booleans, `self.maintenance_mode` and
`self.safety_triggered` (lines 104-105); the spec's `SafetyState`
{Active, Triggered, MaintenanceDisabled} is carried by this pair. -/

structure SafetyState where
  maintenance_mode : Bool
  safety_triggered : Bool
deriving DecidableEq

/-- The shutdown action set executed by `trigger_safety_shutdown`
(lines 1752-1796): flow commands per MFC node and the temperature
setpoint command, in sccm and degrees C. -/
structure ShutdownActions where
  co2_flow : ℚ
  h2_flow : ℚ
  n2_flow : ℚ
  temp_setpoint : ℚ
deriving DecidableEq

/-- The concrete action set of `trigger_safety_shutdown`: node 3 (CO2)
`set_flow_rate(50)`, node 6 (H2) `set_flow_rate(0)`, node 1 (N2)
`set_flow_rate(100)`, temperature setpoint `20.0`. -/
def trigger_actions : ShutdownActions :=
  { co2_flow := 50, h2_flow := 0, n2_flow := 100, temp_setpoint := 20 }

/-- `check_safety_conditions(self, internal_temp, external_temp, setpoint)`
(lines 1623-1642) together with the state flip done by
`trigger_safety_shutdown` (line 1754).  Returns the new state and the
emitted action set, if any. -/
def check_safety_conditions (s : SafetyState)
    (internal_temp external_temp setpoint : ℚ) :
    SafetyState × Option ShutdownActions :=
  if s.maintenance_mode || s.safety_triggered then (s, none)
  else if 750 ≤ internal_temp ∨ 750 ≤ external_temp ∨ 750 ≤ setpoint then
    ({ s with safety_triggered := true }, some trigger_actions)
  else (s, none)

/-! ### Flow-starvation monitor (`check_flow_conditions`, lines 1644-1682)

Per-channel alert state: `self.flow_alert_start_times[node_id]` is the
optional episode start time, `self.flow_alerts[node_id]` records that the
single notification for the current episode went out. -/

structure FlowAlertState where
  start_time : Option ℚ
  alerted : Bool
deriving DecidableEq

def initFlowAlertState : FlowAlertState := { start_time := none, alerted := false }

/-- One `check_flow_conditions` poll for a single MFC channel: `now` is
`current_time` in seconds, `flow` and `setpoint` the channel readings.
Returns the updated alert state and whether a notification was sent on
this poll. -/
def check_flow_step (maintenance_mode : Bool) (now flow setpoint : ℚ)
    (s : FlowAlertState) : FlowAlertState × Bool :=
  if maintenance_mode then (s, false)
  else if 0 < setpoint then
    if flow < 9/10 * setpoint then
      match s.start_time with
      | none => ({ start_time := some now, alerted := s.alerted }, false)
      | some t0 =>
        if 60 < now - t0 then
          if s.alerted then (s, false)
          else ({ s with alerted := true }, true)
        else (s, false)
    else (initFlowAlertState, false)
  else (s, false)

/-- Fold `check_flow_step` over a list of observations `(now, flow, setpoint)`
for one channel, counting emitted notifications. -/
def run_flow_checks (maintenance_mode : Bool) :
    List (ℚ × ℚ × ℚ) → FlowAlertState → FlowAlertState × ℕ
  | [], s => (s, 0)
  | (now, flow, sp) :: rest, s =>
    let r1 := check_flow_step maintenance_mode now flow sp s
    let r2 := run_flow_checks maintenance_mode rest r1.1
    (r2.1, (if r1.2 then 1 else 0) + r2.2)

/-! ### Percentage-scaled flow reads (mfc_controller.py, lines 191-209)

`read_parameter` returns `None` on any communication or decode failure;
`get_current_flow` / `get_current_setpoint` map that to `0.0`.  The raw
parameter value, when present, is a device integer in 0..32000. -/

/-- `MFCController.get_current_flow(self)`: `measure_int` is the result of
`read_parameter('measure')`. -/
def get_current_flow (capacity : ℚ) (measure_int : Option ℤ) : ℚ :=
  match measure_int with
  | none => 0
  | some m => ((m : ℚ) / 32000 * 100) / 100 * capacity

/-- `MFCController.get_current_setpoint(self)`: `setpoint_int` is the result
of `read_parameter('setpoint')`. -/
def get_current_setpoint (capacity : ℚ) (setpoint_int : Option ℤ) : ℚ :=
  match setpoint_int with
  | none => 0
  | some m => ((m : ℚ) / 32000 * 100) / 100 * capacity

/-! ### Ramp model (temp_ramp.py)

Temperatures in degrees C, times in minutes, rates in degrees C per
minute, all as exact rationals. -/

def MAX_ERROR_DURING_RAMP : ℚ := 1/10

/-- `np.arange(start, stop, step)` for positive `step`: the values
`start + k * step` for `k` below `ceil((stop - start) / step)` (empty when
`stop <= start`). -/
def arange (start stop step : ℚ) : List ℚ :=
  (List.range (⌈(stop - start) / step⌉.toNat)).map (fun k : ℕ => start + (k : ℚ) * step)

/-- The non-flipped branch of `flex_arange` (temp_ramp.py lines 18-26):
`np.arange(start, stop, step)`, appending `stop` when the last element
misses it.  Python indexes `xs[-1]` and would raise on an empty `xs`
(only possible for `start >= stop`, which `flex_arange` never passes in
this program); the `none` branch is that unreachable case. -/
def flex_arange_up (start stop step : ℚ) : List ℚ :=
  let xs := arange start stop step
  match xs.getLast? with
  | some l => if l = stop then xs else xs ++ [stop]
  | none => [stop]

/-- `flex_arange(start, stop, step)`: flips a descending range through the
ascending case and reverses. -/
def flex_arange (start stop step : ℚ) : List ℚ :=
  if stop < start then (flex_arange_up stop start step).reverse
  else flex_arange_up start stop step

/-- `np.interp(x, [xa, xb], [ya, yb])` for a two-point table with
`xa < xb`: linear interpolation, clamped to the table's ends. -/
def interp (xa xb ya yb x : ℚ) : ℚ :=
  if x ≤ xa then ya
  else if xb ≤ x then yb
  else ya + (x - xa) * (yb - ya) / (xb - xa)

/-- `TempRamp` (temp_ramp.py lines 29-33): `temps` in degrees C,
`hold_times` in minutes, `ramp_rates` in degrees C / minute. -/
structure TempRamp where
  temps : List ℚ
  hold_times : List ℚ
  ramp_rates : List ℚ

/-- The zipped legs `(start_temp, hold_time, ramp_rate, end_temp)` walked by
`TempRamp.ramp_points`' for-loop (`zip(self.temps, self.hold_times,
self.ramp_rates, self.temps[1:])`; `zip` truncates to the shortest input,
as `List.zip` does). -/
def legs (r : TempRamp) : List (ℚ × ℚ × ℚ × ℚ) :=
  r.temps.zip (r.hold_times.zip (r.ramp_rates.zip r.temps.tail))

/-- The loop body of `TempRamp.ramp_points` (lines 41-58), threading
`curr_time` and returning the emitted points together with the final
`curr_time`. -/
def ramp_points_aux : ℚ → List (ℚ × ℚ × ℚ × ℚ) → List (ℚ × ℚ) × ℚ
  | t, [] => ([], t)
  | t, (s, h, rr, e) :: rest =>
    let t1 := if 0 < h then t + h else t
    let pts := if 0 < h then [(t, s), (t1, s)] else [(t, s)]
    let t2 := if 0 < rr then t1 + |e - s| / rr else t1
    let res := ramp_points_aux t2 rest
    (pts ++ res.1, res.2)

/-- `TempRamp.ramp_points(self)` (lines 35-63): the sparse ramp corner
points, as (time, temperature) pairs; the trailing point carries
`self.temps[-1]` (Python raises on an empty `temps`; `getLastD 0` stands in
for that unreachable failure). -/
def ramp_points (r : TempRamp) : List (ℚ × ℚ) :=
  let res := ramp_points_aux 0 (legs r)
  res.1 ++ [(res.2, r.temps.getLastD 0)]

/-- The body of `TempRamp.control_points`' for-loop for one consecutive
pair of ramp points (lines 71-95): holds are emitted as a single point,
zero-rate pairs (equal temperatures) are skipped, and true ramps are
subdivided with `flex_arange` and linearly interpolated times. -/
def control_segment (t0 t1 p0 p1 : ℚ) : List (ℚ × ℚ) :=
  if t0 = t1 then [(t1, p1)]
  else if p0 = p1 then []
  else
    (if p0 < p1 then (flex_arange p0 p1 MAX_ERROR_DURING_RAMP).map (interp p0 p1 t0 t1)
     else ((flex_arange p0 p1 MAX_ERROR_DURING_RAMP).map (interp p1 p0 t0 t1)).reverse).zip
      (flex_arange p0 p1 MAX_ERROR_DURING_RAMP)

/-- `TempRamp.control_points` iterates `control_segment` over consecutive
pairs of the ramp points (`zip(times, times[1:], temps, temps[1:])`). -/
def control_points_aux : List (ℚ × ℚ) → List (ℚ × ℚ)
  | (t0, p0) :: (t1, p1) :: rest =>
    control_segment t0 t1 p0 p1 ++ control_points_aux ((t1, p1) :: rest)
  | _ => []

/-- `TempRamp.control_points(self)` (lines 65-97), as a single list of
(time, temperature) pairs (the Python keeps two parallel lists of equal
length). -/
def control_points (r : TempRamp) : List (ℚ × ℚ) :=
  control_points_aux (ramp_points r)

/-! ### Setpoint scheduler

`update_set_point` (temp_controller_manager.py lines 169-178) and the
identical normal-branch of `run_temp_control_loop`
(reactor_control_gui_v1.py lines 1394-1399):

    desired_set_point_idx = np.argmax(ramp_control_times > elapsed) - 1
    desired_set_point = ramp_control_temps[desired_set_point_idx]
-/

/-- Index of the first list element satisfying `p`, if any. -/
def first_true_idx (p : ℚ → Bool) : List ℚ → Option ℕ
  | [] => none
  | t :: rest => if p t then some 0 else (first_true_idx p rest).map (· + 1)

/-- `np.argmax(times > x)` on a boolean comparison array: the index of the
first `True`, and `0` when every entry is `False` (numpy raises on an empty
array; the `getD 0` default stands in for that unreachable case). -/
def np_argmax_gt (times : List ℚ) (x : ℚ) : ℕ :=
  (first_true_idx (fun t => decide (x < t)) times).getD 0

/-- Python list indexing `xs[i]` including the negative-index wraparound
`xs[-1]`; out-of-range indices raise in Python and fall to the default
here (unreachable for the index `np.argmax(..) - 1`, which lies in
`[-1, len-2]` for a nonempty list). -/
def py_index (xs : List ℚ) (i : ℤ) : ℚ :=
  if i < 0 then xs.getD (xs.length - (-i).toNat) 0 else xs.getD i.toNat 0

/-- The scheduler: the setpoint selected for wall-clock `elapsed` minutes
from the control points. -/
def update_set_point (pts : List (ℚ × ℚ)) (elapsed : ℚ) : ℚ :=
  py_index (pts.map Prod.snd) ((np_argmax_gt (pts.map Prod.fst) elapsed : ℤ) - 1)

/-- Modelled from the spec: "returns the target temperature associated with
the latest control point whose time is ≤ elapsed" (§4.3), reading "latest"
as the last such point in schedule order.  Used only to compare the code's
scheduler against the spec's description. -/
def spec_current_setpoint (pts : List (ℚ × ℚ)) (elapsed : ℚ) : Option ℚ :=
  ((pts.filter (fun p => decide (p.1 ≤ elapsed))).getLast?).map Prod.snd

/-! ### Basic lemmas: arange and flex_arange_up -/

theorem chain'_arange (start stop step : ℚ) :
    List.Chain' (fun a b => b - a = step) (arange start stop step) := by
  unfold arange
  rw [List.chain'_map]
  rcases hn : (⌈(stop - start) / step⌉.toNat) with _ | m
  · simp
  · exact (List.chain'_range_succ _ m).mpr (fun k hk => by push_cast; ring)

theorem arange_val_lt_stop {start stop step : ℚ} (hs : 0 < step)
    {k : ℕ} (hk : k < ⌈(stop - start) / step⌉.toNat) :
    start + (k : ℚ) * step < stop := by
  have hkz : (k : ℤ) < ⌈(stop - start) / step⌉ := by omega
  have h3 : ((k : ℤ) : ℚ) ≤ (⌈(stop - start) / step⌉ : ℚ) - 1 := by
    exact_mod_cast Int.le_sub_one_of_lt hkz
  have h4 : (⌈(stop - start) / step⌉ : ℚ) < (stop - start) / step + 1 :=
    Int.ceil_lt_add_one _
  have h1 : (k : ℚ) < (stop - start) / step := by push_cast at h3; linarith
  have h5 : (k : ℚ) * step < stop - start := by
    have h6 := mul_lt_mul_of_pos_right h1 hs
    rwa [div_mul_cancel₀ _ (ne_of_gt hs)] at h6
  linarith

theorem arange_mem_bounds {start stop step : ℚ} (h : start < stop) (hs : 0 < step) :
    ∀ x ∈ arange start stop step, start ≤ x ∧ x < stop := by
  intro x hx
  unfold arange at hx
  obtain ⟨k, hk, rfl⟩ := List.mem_map.mp hx
  rw [List.mem_range] at hk
  refine ⟨by nlinarith [Nat.cast_nonneg (α := ℚ) k], arange_val_lt_stop hs hk⟩

theorem arange_count_pos {start stop step : ℚ} (h : start < stop) (hs : 0 < step) :
    0 < ⌈(stop - start) / step⌉.toNat := by
  have hq : (0:ℚ) < (stop - start) / step := by
    apply div_pos (by linarith) hs
  have := Int.ceil_pos.mpr hq
  omega

theorem flex_up_eq {start stop step : ℚ} (h : start < stop) (hs : 0 < step) :
    flex_arange_up start stop step = arange start stop step ++ [stop] := by
  obtain ⟨m, hm⟩ := Nat.exists_eq_succ_of_ne_zero (arange_count_pos h hs).ne'
  have hgl : (arange start stop step).getLast? = some (start + (m : ℚ) * step) := by
    unfold arange
    rw [hm, List.range_succ, List.map_append, List.map_singleton, List.getLast?_concat]
  unfold flex_arange_up
  simp only [hgl]
  rw [if_neg]
  exact ne_of_lt (arange_val_lt_stop hs (by omega))

theorem arange_head {start stop step : ℚ} (h : start < stop) (hs : 0 < step) :
    (arange start stop step).head? = some start := by
  obtain ⟨m, hm⟩ := Nat.exists_eq_succ_of_ne_zero (arange_count_pos h hs).ne'
  unfold arange
  rw [hm, List.range_succ_eq_map]
  simp

theorem flex_up_head {start stop step : ℚ} (h : start < stop) (hs : 0 < step) :
    (flex_arange_up start stop step).head? = some start := by
  rw [flex_up_eq h hs]
  obtain ⟨m, hm⟩ := Nat.exists_eq_succ_of_ne_zero (arange_count_pos h hs).ne'
  have hne : arange start stop step ≠ [] := by
    unfold arange
    rw [hm]
    simp
  rw [List.head?_append_of_ne_nil _ hne, arange_head h hs]

theorem flex_up_getLast {start stop step : ℚ} (h : start < stop) (hs : 0 < step) :
    (flex_arange_up start stop step).getLast? = some stop := by
  rw [flex_up_eq h hs, List.getLast?_concat]

theorem flex_up_mem {start stop step : ℚ} (h : start < stop) (hs : 0 < step) :
    ∀ x ∈ flex_arange_up start stop step, start ≤ x ∧ x ≤ stop := by
  rw [flex_up_eq h hs]
  intro x hx
  rcases List.mem_append.mp hx with hx | hx
  · have := arange_mem_bounds h hs x hx
    exact ⟨this.1, this.2.le⟩
  · rw [List.mem_singleton] at hx
    exact ⟨by rw [hx]; exact h.le, by rw [hx]⟩

theorem flex_up_chain {start stop step : ℚ} (h : start < stop) (hs : 0 < step) :
    List.Chain' (fun a b => a ≤ b ∧ b - a ≤ step) (flex_arange_up start stop step) := by
  rw [flex_up_eq h hs, List.chain'_append]
  refine ⟨(chain'_arange start stop step).imp ?_, by simp, ?_⟩
  · intro a b hab
    exact ⟨by linarith, by linarith⟩
  · intro x hx y hy
    rw [List.head?_cons, Option.mem_some_iff] at hy
    subst hy
    obtain ⟨m, hm⟩ := Nat.exists_eq_succ_of_ne_zero (arange_count_pos h hs).ne'
    have hgl : (arange start stop step).getLast? = some (start + (m : ℚ) * step) := by
      unfold arange
      rw [hm, List.range_succ, List.map_append, List.map_singleton, List.getLast?_concat]
    rw [hgl, Option.mem_some_iff] at hx
    subst hx
    have hlt : start + (m : ℚ) * step < stop := arange_val_lt_stop hs (by omega)
    have hq0 : (0:ℚ) < (stop - start) / step := div_pos (by linarith) hs
    have hceil_pos : (0:ℤ) < ⌈(stop - start) / step⌉ := Int.ceil_pos.mpr hq0
    have hceil_eq : ⌈(stop - start) / step⌉ = ((m : ℤ) + 1) := by omega
    have h7 : (stop - start) / step ≤ (m : ℚ) + 1 := by
      have h8 := Int.le_ceil ((stop - start) / step)
      rw [hceil_eq] at h8
      push_cast at h8
      linarith
    have h9 : stop - start ≤ ((m : ℚ) + 1) * step := by
      have h10 := mul_le_mul_of_nonneg_right h7 hs.le
      rwa [div_mul_cancel₀ _ (ne_of_gt hs)] at h10
    exact ⟨hlt.le, by linarith⟩

/-! ### Basic lemmas: interp -/

theorem interp_left (xa xb ya yb : ℚ) : interp xa xb ya yb xa = ya := by
  unfold interp
  rw [if_pos le_rfl]

theorem interp_right {xa xb : ℚ} (hx : xa < xb) (ya yb : ℚ) :
    interp xa xb ya yb xb = yb := by
  unfold interp
  rw [if_neg (by linarith), if_pos le_rfl]

theorem interp_mono {xa xb ya yb : ℚ} (hx : xa < xb) (hy : ya ≤ yb)
    {x1 x2 : ℚ} (h12 : x1 ≤ x2) :
    interp xa xb ya yb x1 ≤ interp xa xb ya yb x2 := by
  have hd : (0:ℚ) < xb - xa := by linarith
  have hnonneg : ∀ u : ℚ, xa < u → 0 ≤ (u - xa) * (yb - ya) / (xb - xa) := by
    intro u hu
    exact div_nonneg (mul_nonneg (by linarith) (by linarith)) hd.le
  have hbound : ∀ u : ℚ, u < xb → (u - xa) * (yb - ya) / (xb - xa) ≤ yb - ya := by
    intro u hu
    rw [div_le_iff₀ hd]
    nlinarith
  have hmid : (x1 - xa) * (yb - ya) / (xb - xa) ≤ (x2 - xa) * (yb - ya) / (xb - xa) := by
    apply div_le_div_of_nonneg_right (by nlinarith) hd.le
  unfold interp
  split_ifs <;>
    first
      | linarith
      | (have e1 := hnonneg x2 (by linarith); linarith)
      | (have e2 := hbound x1 (by linarith); linarith)
      | linarith [hmid]

theorem interp_mem {xa xb ya yb : ℚ} (hx : xa < xb) (hy : ya ≤ yb) (x : ℚ) :
    ya ≤ interp xa xb ya yb x ∧ interp xa xb ya yb x ≤ yb := by
  have hd : (0:ℚ) < xb - xa := by linarith
  unfold interp
  split_ifs with h1 h2
  · exact ⟨le_rfl, hy⟩
  · exact ⟨hy, le_rfl⟩
  · have hnn : 0 ≤ (x - xa) * (yb - ya) / (xb - xa) :=
      div_nonneg (mul_nonneg (by linarith) (by linarith)) hd.le
    have hbd : (x - xa) * (yb - ya) / (xb - xa) ≤ yb - ya := by
      rw [div_le_iff₀ hd]
      nlinarith
    exact ⟨by linarith, by linarith⟩

theorem interp_gt {xa xb ya yb : ℚ} (hx : xa < xb) (hy : ya < yb)
    {x : ℚ} (hxa : xa < x) : ya < interp xa xb ya yb x := by
  have hd : (0:ℚ) < xb - xa := by linarith
  unfold interp
  split_ifs with h1 h2
  · linarith
  · linarith
  · have : 0 < (x - xa) * (yb - ya) / (xb - xa) :=
      div_pos (mul_pos (by linarith) (by linarith)) hd
    linarith

/-! ### Basic lemmas: zip -/

theorem zip_head?_eq {l1 : List ℚ} {l2 : List ℚ} {a b : ℚ}
    (ha : l1.head? = some a) (hb : l2.head? = some b) :
    (l1.zip l2).head? = some (a, b) := by
  cases l1 with
  | nil => simp at ha
  | cons x xs =>
    cases l2 with
    | nil => simp at hb
    | cons y ys =>
      simp only [List.head?_cons, Option.some_inj] at ha hb
      subst ha; subst hb
      rfl

theorem zip_getLast?_eq {l1 : List ℚ} {l2 : List ℚ} {a b : ℚ}
    (hlen : l1.length = l2.length)
    (ha : l1.getLast? = some a) (hb : l2.getLast? = some b) :
    (l1.zip l2).getLast? = some (a, b) := by
  induction l1 generalizing l2 a b with
  | nil => simp at ha
  | cons x xs ih =>
    cases l2 with
    | nil => simp at hb
    | cons y ys =>
      cases xs with
      | nil =>
        cases ys with
        | nil =>
          simp only [List.getLast?_singleton, Option.some_inj] at ha hb
          subst ha; subst hb
          rfl
        | cons y' ys' => simp at hlen
      | cons x' xs' =>
        cases ys with
        | nil => simp at hlen
        | cons y' ys' =>
          have hlen' : (x' :: xs').length = (y' :: ys').length := by
            simpa using hlen
          have ha' : (x' :: xs').getLast? = some a := by
            simpa [List.getLast?_cons_cons] using ha
          have hb' : (y' :: ys').getLast? = some b := by
            simpa [List.getLast?_cons_cons] using hb
          have hrec := ih hlen' ha' hb'
          have hne : (x' :: xs').zip (y' :: ys') ≠ [] := by
            intro hcon
            rw [hcon] at hrec
            simp at hrec
          calc ((x :: x' :: xs').zip (y :: y' :: ys')).getLast?
              = ((x, y) :: (x' :: xs').zip (y' :: ys')).getLast? := rfl
            _ = ((x' :: xs').zip (y' :: ys')).getLast? := by
                cases hzz : (x' :: xs').zip (y' :: ys') with
                | nil => exact absurd hzz hne
                | cons z zs => simp [List.getLast?_cons_cons]
            _ = some (a, b) := hrec

theorem chain'_zip_fst (R : ℚ → ℚ → Prop) {l1 l2 : List ℚ}
    (hlen : l1.length = l2.length) (hc : List.Chain' R l1) :
    List.Chain' (fun p q : ℚ × ℚ => R p.1 q.1) (l1.zip l2) := by
  have hmap : (l1.zip l2).map Prod.fst = l1 := List.map_fst_zip l1 l2 (le_of_eq hlen)
  rw [← hmap] at hc
  exact (List.chain'_map _).mp hc

theorem chain'_zip_snd (R : ℚ → ℚ → Prop) {l1 l2 : List ℚ}
    (hlen : l1.length = l2.length) (hc : List.Chain' R l2) :
    List.Chain' (fun p q : ℚ × ℚ => R p.2 q.2) (l1.zip l2) := by
  have hmap : (l1.zip l2).map Prod.snd = l2 := List.map_snd_zip l1 l2 (le_of_eq hlen.symm)
  rw [← hmap] at hc
  exact (List.chain'_map _).mp hc

/-! ### Lemmas: flex_arange and control_segment -/

theorem flex_up_tail_gt {start stop step : ℚ} (h : start < stop) (hs : 0 < step) :
    ∀ v ∈ (flex_arange_up start stop step).tail, start < v := by
  obtain ⟨m, hm⟩ := Nat.exists_eq_succ_of_ne_zero (arange_count_pos h hs).ne'
  have har : arange start stop step =
      (start + (0 : ℕ) * step) :: (List.range m).map (fun k : ℕ => start + ((k + 1 : ℕ) : ℚ) * step) := by
    unfold arange
    rw [hm, List.range_succ_eq_map, List.map_cons, List.map_map]
    rfl
  rw [flex_up_eq h hs, har]
  intro v hv
  simp only [List.cons_append, List.tail_cons] at hv
  rcases List.mem_append.mp hv with hv | hv
  · obtain ⟨k, _, rfl⟩ := List.mem_map.mp hv
    have : (0:ℚ) ≤ (k : ℚ) := Nat.cast_nonneg k
    push_cast
    nlinarith
  · rw [List.mem_singleton] at hv
    rw [hv]
    exact h

/-- The descending branch of `control_segment` pairs the time list
`np.interp(ramp_temps, [p1, p0], [t0, t1])[::-1]` with the temperature list
`flex_arange(p0, p1) = flex_arange_up(p1, p0)[::-1]`; the double reversal
makes the times an unreversed map over `flex_arange_up p1 p0`. -/
theorem control_segment_desc {t0 t1 p0 p1 : ℚ} (he : ¬ t0 = t1) (hgt : p1 < p0) :
    control_segment t0 t1 p0 p1 =
      ((flex_arange_up p1 p0 MAX_ERROR_DURING_RAMP).map (interp p1 p0 t0 t1)).zip
        ((flex_arange_up p1 p0 MAX_ERROR_DURING_RAMP).reverse) := by
  unfold control_segment
  rw [if_neg he, if_neg (by intro hc; exact absurd hc (ne_of_gt hgt))]
  have hfa : flex_arange p0 p1 MAX_ERROR_DURING_RAMP =
      (flex_arange_up p1 p0 MAX_ERROR_DURING_RAMP).reverse := by
    unfold flex_arange
    rw [if_pos hgt]
  rw [if_neg (by exact not_lt.mpr hgt.le), hfa, List.map_reverse, List.reverse_reverse]

theorem control_segment_asc {t0 t1 p0 p1 : ℚ} (he : ¬ t0 = t1) (hlt : p0 < p1) :
    control_segment t0 t1 p0 p1 =
      ((flex_arange_up p0 p1 MAX_ERROR_DURING_RAMP).map (interp p0 p1 t0 t1)).zip
        (flex_arange_up p0 p1 MAX_ERROR_DURING_RAMP) := by
  unfold control_segment
  rw [if_neg he, if_neg (by intro hc; exact absurd hc (ne_of_lt hlt))]
  have hfa : flex_arange p0 p1 MAX_ERROR_DURING_RAMP =
      flex_arange_up p0 p1 MAX_ERROR_DURING_RAMP := by
    unfold flex_arange
    rw [if_neg (by exact not_lt.mpr hlt.le)]
  rw [if_pos hlt, hfa]

theorem step_pos : (0:ℚ) < MAX_ERROR_DURING_RAMP := by norm_num [MAX_ERROR_DURING_RAMP]

theorem control_segment_sub {t0 t1 p0 p1 : ℚ} (h01 : t0 ≤ t1) :
    ∀ q ∈ control_segment t0 t1 p0 p1, t0 ≤ q.1 ∧ q.1 ≤ t1 := by
  intro q hq
  by_cases he : t0 = t1
  · unfold control_segment at hq
    rw [if_pos he] at hq
    rw [List.mem_singleton] at hq
    rw [hq]
    exact ⟨le_of_le_of_eq h01 rfl, le_rfl⟩
  by_cases hp : p0 = p1
  · unfold control_segment at hq
    rw [if_neg he, if_pos hp] at hq
    cases hq
  obtain ⟨x, y⟩ := q
  rcases lt_or_gt_of_ne hp with hlt | hgt
  · rw [control_segment_asc he hlt] at hq
    obtain ⟨hx, _⟩ := List.of_mem_zip hq
    obtain ⟨v, _, rfl⟩ := List.mem_map.mp hx
    exact interp_mem hlt h01 v
  · rw [control_segment_desc he hgt] at hq
    obtain ⟨hx, _⟩ := List.of_mem_zip hq
    obtain ⟨v, _, rfl⟩ := List.mem_map.mp hx
    exact interp_mem hgt h01 v

theorem control_segment_chain_fst {t0 t1 p0 p1 : ℚ} (h01 : t0 ≤ t1) :
    List.Chain' (fun a b : ℚ × ℚ => a.1 ≤ b.1) (control_segment t0 t1 p0 p1) := by
  by_cases he : t0 = t1
  · unfold control_segment
    rw [if_pos he]
    simp
  by_cases hp : p0 = p1
  · unfold control_segment
    rw [if_neg he, if_pos hp]
    simp
  have h01' : t0 < t1 := lt_of_le_of_ne h01 he
  rcases lt_or_gt_of_ne hp with hlt | hgt
  · rw [control_segment_asc he hlt]
    apply chain'_zip_fst (· ≤ ·) (by simp)
    rw [List.chain'_map]
    exact (flex_up_chain hlt step_pos).imp
      (fun a b hab => interp_mono hlt h01 hab.1)
  · rw [control_segment_desc he hgt]
    apply chain'_zip_fst (· ≤ ·) (by simp)
    rw [List.chain'_map]
    exact (flex_up_chain hgt step_pos).imp
      (fun a b hab => interp_mono hgt h01 hab.1)

theorem control_segment_chain_snd (t0 t1 p0 p1 : ℚ) :
    List.Chain' (fun a b : ℚ × ℚ => |b.2 - a.2| ≤ MAX_ERROR_DURING_RAMP)
      (control_segment t0 t1 p0 p1) := by
  by_cases he : t0 = t1
  · unfold control_segment
    rw [if_pos he]
    simp
  by_cases hp : p0 = p1
  · unfold control_segment
    rw [if_neg he, if_pos hp]
    simp
  rcases lt_or_gt_of_ne hp with hlt | hgt
  · rw [control_segment_asc he hlt]
    exact chain'_zip_snd (fun a b => |b - a| ≤ MAX_ERROR_DURING_RAMP) (by simp)
      ((flex_up_chain hlt step_pos).imp
        (fun a b hab => by rw [abs_of_nonneg (by linarith [hab.1])]; exact hab.2))
  · rw [control_segment_desc he hgt]
    refine chain'_zip_snd (fun a b => |b - a| ≤ MAX_ERROR_DURING_RAMP) (by simp) ?_
    rw [List.chain'_reverse]
    exact (flex_up_chain hgt step_pos).imp
      (fun a b hab => by
        show |a - b| ≤ MAX_ERROR_DURING_RAMP
        rw [abs_sub_comm, abs_of_nonneg (by linarith [hab.1])]
        exact hab.2)

theorem control_segment_getLast {t0 t1 p0 p1 : ℚ} (hcase : t0 = t1 ∨ p0 ≠ p1) :
    (control_segment t0 t1 p0 p1).getLast? = some (t1, p1) := by
  by_cases he : t0 = t1
  · unfold control_segment
    rw [if_pos he]
    rfl
  have hp : p0 ≠ p1 := hcase.resolve_left he
  rcases lt_or_gt_of_ne hp with hlt | hgt
  · rw [control_segment_asc he hlt]
    apply zip_getLast?_eq (by simp)
    · rw [List.getLast?_map, flex_up_getLast hlt step_pos]
      simp [interp_right hlt]
    · exact flex_up_getLast hlt step_pos
  · rw [control_segment_desc he hgt]
    apply zip_getLast?_eq (by simp)
    · rw [List.getLast?_map, flex_up_getLast hgt step_pos]
      simp [interp_right hgt]
    · rw [List.getLast?_reverse, flex_up_head hgt step_pos]

theorem control_segment_head_asc {t0 t1 p0 p1 : ℚ} (he : ¬ t0 = t1) (hlt : p0 < p1) :
    (control_segment t0 t1 p0 p1).head? = some (t0, p0) := by
  rw [control_segment_asc he hlt]
  apply zip_head?_eq
  · rw [List.head?_map, flex_up_head hlt step_pos]
    simp [interp_left]
  · exact flex_up_head hlt step_pos

theorem control_segment_tail_gt_asc {t0 t1 p0 p1 : ℚ} (he : ¬ t0 = t1)
    (hlt : p0 < p1) (h01 : t0 < t1) :
    ∀ q ∈ (control_segment t0 t1 p0 p1).tail, t0 < q.1 := by
  rw [control_segment_asc he hlt]
  intro q hq
  obtain ⟨v0, vs, hvs⟩ : ∃ v0 vs, flex_arange_up p0 p1 MAX_ERROR_DURING_RAMP = v0 :: vs := by
    cases hfl : flex_arange_up p0 p1 MAX_ERROR_DURING_RAMP with
    | nil =>
      have := flex_up_head hlt step_pos
      rw [hfl] at this
      simp at this
    | cons v0 vs => exact ⟨v0, vs, rfl⟩
  rw [hvs] at hq
  simp only [List.map_cons, List.zip_cons_cons, List.tail_cons] at hq
  obtain ⟨hx, hy⟩ := List.of_mem_zip hq
  obtain ⟨v, hv, hqv⟩ := List.mem_map.mp hx
  have hvt : v ∈ (flex_arange_up p0 p1 MAX_ERROR_DURING_RAMP).tail := by
    rw [hvs]
    exact hv
  have hgtv : p0 < v := flex_up_tail_gt hlt step_pos v hvt
  rw [← hqv]
  exact interp_gt hlt h01 hgtv

/-! ### Lemmas: ramp_points -/

theorem ramp_points_aux_ge :
    ∀ (L : List (ℚ × ℚ × ℚ × ℚ)) (t : ℚ),
      (∀ q ∈ (ramp_points_aux t L).1, t ≤ q.1) ∧ t ≤ (ramp_points_aux t L).2 := by
  intro L
  induction L with
  | nil => intro t; exact ⟨by simp [ramp_points_aux], le_rfl⟩
  | cons leg rest ih =>
    intro t
    obtain ⟨s, h, rr, e⟩ := leg
    simp only [ramp_points_aux]
    set u := (if 0 < h then t + h else t) with hu
    set w := (if 0 < rr then u + |e - s| / rr else u) with hw
    have ht1 : t ≤ u := by
      rw [hu]
      split_ifs with hh
      · linarith
      · exact le_rfl
    have ht2 : u ≤ w := by
      rw [hw]
      split_ifs with hr
      · have hd : (0:ℚ) ≤ |e - s| / rr := div_nonneg (abs_nonneg _) hr.le
        linarith
      · exact le_rfl
    obtain ⟨ihmem, ihend⟩ := ih w
    constructor
    · intro q hq
      rw [List.mem_append] at hq
      rcases hq with hq | hq
      · split_ifs at hq with hh
        · rcases List.mem_cons.mp hq with hq | hq
          · subst hq
            exact le_rfl
          · rw [List.mem_singleton] at hq
            subst hq
            exact ht1
        · rw [List.mem_singleton] at hq
          subst hq
          exact le_rfl
      · exact le_trans (le_trans ht1 ht2) (ihmem q hq)
    · exact le_trans (le_trans ht1 ht2) ihend

theorem ramp_points_aux_chain :
    ∀ (L : List (ℚ × ℚ × ℚ × ℚ)) (t x : ℚ),
      List.Chain' (fun a b : ℚ × ℚ => a.1 ≤ b.1)
        ((ramp_points_aux t L).1 ++ [((ramp_points_aux t L).2, x)]) := by
  intro L
  induction L with
  | nil => intro t x; simp [ramp_points_aux]
  | cons leg rest ih =>
    intro t x
    obtain ⟨s, h, rr, e⟩ := leg
    set t1 := (if 0 < h then t + h else t) with ht1def
    set t2 := (if 0 < rr then t1 + |e - s| / rr else t1) with ht2def
    have ht1 : t ≤ t1 := by
      rw [ht1def]
      split_ifs with hh
      · linarith
      · exact le_rfl
    have ht2 : t1 ≤ t2 := by
      rw [ht2def]
      split_ifs with hr
      · have hd : (0:ℚ) ≤ |e - s| / rr := div_nonneg (abs_nonneg _) hr.le
        linarith
      · exact le_rfl
    have hrec := ih t2 x
    have hge := ramp_points_aux_ge rest t2
    have hshape : (ramp_points_aux t ((s, h, rr, e) :: rest)).1 ++
        [((ramp_points_aux t ((s, h, rr, e) :: rest)).2, x)] =
        (if 0 < h then [(t, s), (t1, s)] else [(t, s)]) ++
          ((ramp_points_aux t2 rest).1 ++ [((ramp_points_aux t2 rest).2, x)]) := by
      simp only [ramp_points_aux]
      rw [List.append_assoc]
    rw [hshape]
    rw [List.chain'_append]
    refine ⟨?_, hrec, ?_⟩
    · split_ifs with hh
      · simp only [List.chain'_cons, List.chain'_singleton, and_true]
        exact ht1
      · simp
    · intro p hp q hq
      have hple : p.1 ≤ t1 := by
        have hpm : p ∈ (if 0 < h then [(t, s), (t1, s)] else [(t, s)]) :=
          List.mem_of_mem_getLast? hp
        split_ifs at hpm with hh
        · rcases List.mem_cons.mp hpm with hp' | hp'
          · subst hp'
            exact ht1
          · rw [List.mem_singleton] at hp'
            subst hp'
            exact le_rfl
        · rw [List.mem_singleton] at hpm
          subst hpm
          exact ht1
      have hqge : t2 ≤ q.1 := by
        have hqm : q ∈ (ramp_points_aux t2 rest).1 ++ [((ramp_points_aux t2 rest).2, x)] :=
          List.mem_of_mem_head? hq
        rw [List.mem_append] at hqm
        rcases hqm with hqm | hqm
        · exact hge.1 q hqm
        · rw [List.mem_singleton] at hqm
          subst hqm
          exact hge.2
      linarith

theorem ramp_points_chain (r : TempRamp) :
    List.Chain' (fun a b : ℚ × ℚ => a.1 ≤ b.1) (ramp_points r) :=
  ramp_points_aux_chain (legs r) 0 (r.temps.getLastD 0)

theorem ramp_points_aux_last :
    ∀ (L : List (ℚ × ℚ × ℚ × ℚ)) (t : ℚ) (hL : L ≠ []),
      ∃ q, (ramp_points_aux t L).1.getLast? = some q ∧
        q.2 = (L.getLast hL).1 ∧
        ((ramp_points_aux t L).2 ≠ q.1 → (L.getLast hL).2.2.2 ≠ (L.getLast hL).1) := by
  intro L
  induction L with
  | nil => intro t hL; exact absurd rfl hL
  | cons leg rest ih =>
    intro t hL
    obtain ⟨s, h, rr, e⟩ := leg
    cases rest with
    | nil =>
      set t1 := (if 0 < h then t + h else t) with ht1def
      have hlast : ([(s, h, rr, e)].getLast hL) = (s, h, rr, e) := rfl
      refine ⟨(t1, s), ?_, by rw [hlast], ?_⟩
      · simp only [ramp_points_aux, List.append_nil]
        split_ifs with hh
        · have ht : t1 = t + h := by rw [ht1def, if_pos hh]
          rw [ht]
          rfl
        · have ht : t1 = t := by rw [ht1def, if_neg hh]
          rw [ht]
          rfl
      · rw [hlast]
        intro hne hes
        apply hne
        simp only [ramp_points_aux]
        rw [show ((s, h, rr, e) : ℚ × ℚ × ℚ × ℚ).2.2.2 = e from rfl] at hes
        rw [show ((s, h, rr, e) : ℚ × ℚ × ℚ × ℚ).1 = s from rfl] at hes
        rw [hes, sub_self, abs_zero, zero_div, add_zero]
        show (if 0 < rr then t1 else t1) = (t1, s).1
        split_ifs <;> rfl
    | cons leg2 rest2 =>
      set t2 := (if 0 < rr then (if 0 < h then t + h else t) + |e - s| / rr
        else (if 0 < h then t + h else t)) with ht2def
      obtain ⟨q, hq, hq2, hq3⟩ := ih t2 (by simp)
      have hne2 : (ramp_points_aux t2 (leg2 :: rest2)).1 ≠ [] := by
        intro hcon
        rw [hcon] at hq
        simp at hq
      refine ⟨q, ?_, ?_, ?_⟩
      · show ((if 0 < h then [(t, s), ((if 0 < h then t + h else t), s)] else [(t, s)]) ++
          (ramp_points_aux t2 (leg2 :: rest2)).1).getLast? = some q
        rw [List.getLast?_append_of_ne_nil _ hne2]
        exact hq
      · rw [List.getLast_cons (by simp)]
        exact hq2
      · rw [List.getLast_cons (by simp)]
        exact hq3

/-! ### Lemmas: control_points_aux -/

theorem control_points_aux_mem_ge :
    ∀ (pts : List (ℚ × ℚ)),
      List.Chain' (fun a b : ℚ × ℚ => a.1 ≤ b.1) pts →
      ∀ z ∈ control_points_aux pts, ∀ q0 ∈ pts.head?, q0.1 ≤ z.1 := by
  intro pts
  induction pts with
  | nil => intro _ z hz; cases hz
  | cons x rest ih =>
    intro hc z hz q0 hq0
    simp only [List.head?_cons, Option.mem_some_iff] at hq0
    subst hq0
    cases rest with
    | nil => cases hz
    | cons y rest2 =>
      obtain ⟨a, b⟩ := x
      obtain ⟨c, d⟩ := y
      have hxy : (a : ℚ) ≤ c := (List.chain'_cons.mp hc).1
      simp only [control_points_aux] at hz
      rw [List.mem_append] at hz
      rcases hz with hz | hz
      · exact (control_segment_sub hxy z hz).1
      · have hind := ih (hc.tail) z hz (c, d) rfl
        exact le_trans hxy hind

theorem control_points_aux_chain :
    ∀ (pts : List (ℚ × ℚ)),
      List.Chain' (fun a b : ℚ × ℚ => a.1 ≤ b.1) pts →
      List.Chain' (fun a b : ℚ × ℚ => a.1 ≤ b.1) (control_points_aux pts) := by
  intro pts
  induction pts with
  | nil => intro _; simp [control_points_aux]
  | cons x rest ih =>
    intro hc
    cases rest with
    | nil => simp [control_points_aux]
    | cons y rest2 =>
      obtain ⟨a, b⟩ := x
      obtain ⟨c, d⟩ := y
      have hxy : (a : ℚ) ≤ c := (List.chain'_cons.mp hc).1
      simp only [control_points_aux]
      rw [List.chain'_append]
      refine ⟨control_segment_chain_fst hxy, ih hc.tail, ?_⟩
      intro p hp q hq
      have hp1 : p.1 ≤ c := by
        have hmem := List.mem_of_mem_getLast? hp
        exact (control_segment_sub hxy p hmem).2
      have hq1 : c ≤ q.1 := by
        have hqmem : q ∈ control_points_aux ((c, d) :: rest2) := by
          cases hcp : control_points_aux ((c, d) :: rest2) with
          | nil => rw [hcp] at hq; cases hq
          | cons w ws =>
            rw [hcp] at hq
            simp at hq
            rw [← hq]
            exact List.mem_cons_self _ _
        exact control_points_aux_mem_ge _ hc.tail q hqmem (c, d) rfl
      linarith

theorem control_points_aux_last_concat :
    ∀ (pts : List (ℚ × ℚ)) (q : ℚ × ℚ) (hne : pts ≠ [])
      (hgood : (pts.getLast hne).1 ≠ q.1 → (pts.getLast hne).2 ≠ q.2),
      ∃ z, (control_points_aux (pts ++ [q])).getLast? = some z ∧ z.2 = q.2 := by
  intro pts
  induction pts with
  | nil => intro q hne _; exact absurd rfl hne
  | cons x rest ih =>
    intro q hne hgood
    cases rest with
    | nil =>
      obtain ⟨a, b⟩ := x
      obtain ⟨c, d⟩ := q
      refine ⟨(c, d), ?_, rfl⟩
      show (control_segment a c b d ++ control_points_aux [(c, d)]).getLast? = some (c, d)
      have : control_points_aux [(c, d)] = [] := rfl
      rw [this, List.append_nil]
      apply control_segment_getLast
      by_cases hac : a = c
      · exact Or.inl hac
      · exact Or.inr (by
          have := hgood
          simp only [List.getLast_singleton] at this
          exact this hac)
    | cons y rest2 =>
      have hne2 : (y :: rest2 : List (ℚ × ℚ)) ≠ [] := by simp
      have hgood2 : ((y :: rest2).getLast hne2).1 ≠ q.1 →
          ((y :: rest2).getLast hne2).2 ≠ q.2 := by
        have hsame : (x :: y :: rest2).getLast hne = (y :: rest2).getLast hne2 :=
          List.getLast_cons hne2
        rw [← hsame]
        exact hgood
      obtain ⟨z, hz, hz2⟩ := ih q hne2 hgood2
      refine ⟨z, ?_, hz2⟩
      have hshape : (x :: y :: rest2) ++ [q] = x :: ((y :: rest2) ++ [q]) := by simp
      rw [hshape]
      obtain ⟨a, b⟩ := x
      obtain ⟨c, d⟩ := y
      show (control_segment a c b d ++ control_points_aux ((c, d) :: (rest2 ++ [q]))).getLast?
        = some z
      have hrecne : control_points_aux ((c, d) :: (rest2 ++ [q])) ≠ [] := by
        intro hcon
        have : control_points_aux ((c, d) :: rest2 ++ [q]) = [] := by
          simpa using hcon
        rw [this] at hz
        cases hz
      rw [List.getLast?_append_of_ne_nil _ hrecne]
      simpa using hz

/-! ### Lemmas: the scheduler on a sorted control-point list -/

theorem first_true_idx_all_false {p : ℚ → Bool} {l : List ℚ}
    (h : ∀ x ∈ l, p x = false) : first_true_idx p l = none := by
  induction l with
  | nil => rfl
  | cons x rest ih =>
    simp only [first_true_idx, h x (List.mem_cons_self _ _)]
    rw [if_neg (by simp), ih (fun y hy => h y (List.mem_cons_of_mem _ hy))]
    rfl

theorem first_true_idx_append {p : ℚ → Bool} {l1 l2 : List ℚ} {y : ℚ}
    (h1 : ∀ x ∈ l1, p x = false) (hy : p y = true) :
    first_true_idx p (l1 ++ y :: l2) = some l1.length := by
  induction l1 with
  | nil => simp [first_true_idx, hy]
  | cons x rest ih =>
    have hx : p x = false := h1 x (List.mem_cons_self _ _)
    simp only [List.cons_append, first_true_idx, hx, List.append_eq]
    rw [if_neg (by simp), ih (fun z hz => h1 z (List.mem_cons_of_mem _ hz))]
    rfl

theorem getD_map_snd (l : List (ℚ × ℚ)) (i : ℕ) (hi : i < l.length) :
    (l.map Prod.snd).getD i 0 = (l.get ⟨i, hi⟩).2 := by
  rw [List.getD_eq_getElem?_getD, List.getElem?_map]
  rw [List.getElem?_eq_getElem hi]
  rfl

theorem getD_map_snd_last {l : List (ℚ × ℚ)} (hne : l ≠ []) :
    (l.map Prod.snd).getD (l.length - 1) 0 = (l.getLast hne).2 := by
  have hlen : 0 < l.length := List.length_pos.mpr hne
  rw [getD_map_snd l (l.length - 1) (by omega), List.getLast_eq_get]

/-- The scheduler's value on any decomposition of the control points into a
nonempty prefix at or before `elapsed` and a suffix strictly after it: the
temperature of the prefix's last point.  This also covers the
all-points-elapsed case (`l2 = []`), where numpy's `argmax` of an all-false
mask returns 0 and Python's `[-1]` wraps to the last element. -/
theorem update_set_point_split (l1 l2 : List (ℚ × ℚ)) (e : ℚ) (hne : l1 ≠ [])
    (h1 : ∀ q ∈ l1, q.1 ≤ e) (h2 : ∀ q ∈ l2, e < q.1) :
    update_set_point (l1 ++ l2) e = (l1.getLast hne).2 := by
  have hfalse : ∀ x ∈ (l1.map Prod.fst), (fun t => decide (e < t)) x = false := by
    intro x hx
    obtain ⟨q, hq, rfl⟩ := List.mem_map.mp hx
    simpa using not_lt.mpr (h1 q hq)
  have hlen1 : 0 < l1.length := List.length_pos.mpr hne
  unfold update_set_point np_argmax_gt
  cases l2 with
  | nil =>
    simp only [List.append_nil]
    rw [first_true_idx_all_false hfalse]
    simp only [Option.getD_none, Nat.cast_zero, zero_sub]
    unfold py_index
    rw [if_pos (by norm_num)]
    simp only [List.length_map]
    rw [(rfl : (-(-1 : ℤ)).toNat = 1)]
    exact getD_map_snd_last hne
  | cons q2 l2' =>
    have hq2 : (fun t => decide (e < t)) q2.1 = true := by
      simpa using h2 q2 (List.mem_cons_self _ _)
    simp only [List.map_append, List.map_cons]
    rw [first_true_idx_append hfalse hq2]
    simp only [Option.getD_some, List.length_map]
    unfold py_index
    rw [if_neg (by omega)]
    rw [(by omega : ((l1.length : ℤ) - 1).toNat = l1.length - 1)]
    have hload : ((l1.map Prod.snd) ++ q2.2 :: l2'.map Prod.snd).getD (l1.length - 1) 0 =
        (l1.map Prod.snd).getD (l1.length - 1) 0 := by
      rw [List.getD_eq_getElem?_getD, List.getD_eq_getElem?_getD,
        List.getElem?_append, if_pos (by simp; omega)]
    rw [hload]
    exact getD_map_snd_last hne

theorem pairwise_fst_of_chain {pts : List (ℚ × ℚ)}
    (hc : List.Chain' (fun a b : ℚ × ℚ => a.1 ≤ b.1) pts) :
    List.Pairwise (fun a b : ℚ × ℚ => a.1 ≤ b.1) pts := by
  induction pts with
  | nil => exact List.Pairwise.nil
  | cons x rest ih =>
    rw [List.pairwise_cons]
    refine ⟨?_, ih hc.tail⟩
    intro q hq
    rcases rest with _ | ⟨y, rest2⟩
    · cases hq
    · have hxy : x.1 ≤ y.1 := (List.chain'_cons.mp hc).1
      have hyq : ∀ z ∈ y :: rest2, y.1 ≤ z.1 := by
        intro z hz
        rcases List.mem_cons.mp hz with hz | hz
        · rw [hz]
        · have hpw := ih hc.tail
          exact (List.pairwise_cons.mp hpw).1 z hz
      exact le_trans hxy (hyq q hq)

/-- Decompose a time-sorted point list at `elapsed`: a prefix of points at
or before it (which is exactly the `filter` the spec describes) and a
suffix strictly after it. -/
theorem sorted_split (pts : List (ℚ × ℚ)) (e : ℚ)
    (hc : List.Chain' (fun a b : ℚ × ℚ => a.1 ≤ b.1) pts) :
    ∃ l1 l2, pts = l1 ++ l2 ∧ (∀ q ∈ l1, q.1 ≤ e) ∧ (∀ q ∈ l2, e < q.1) ∧
      l1 = pts.filter (fun q => decide (q.1 ≤ e)) := by
  have hp := pairwise_fst_of_chain hc
  clear hc
  induction pts with
  | nil => exact ⟨[], [], by simp, by simp, by simp, by simp⟩
  | cons x rest ih =>
    rw [List.pairwise_cons] at hp
    obtain ⟨hx_all, hp'⟩ := hp
    obtain ⟨l1, l2, hsplit, ha, hb, hfil⟩ := ih hp'
    by_cases hx : x.1 ≤ e
    · refine ⟨x :: l1, l2, by rw [hsplit]; rfl, ?_, hb, ?_⟩
      · intro q hq
        rcases List.mem_cons.mp hq with hq | hq
        · rw [hq]; exact hx
        · exact ha q hq
      · rw [List.filter_cons, if_pos (by simpa using hx), hfil]
    · refine ⟨[], x :: rest, by simp, by simp, ?_, ?_⟩
      · intro q hq
        rcases List.mem_cons.mp hq with hq | hq
        · rw [hq]; exact lt_of_not_le hx
        · exact lt_of_lt_of_le (lt_of_not_le hx) (hx_all q hq)
      · rw [List.filter_cons, if_neg (by simpa using hx)]
        symm
        rw [List.filter_eq_nil_iff]
        intro q hq
        simp only [decide_eq_true_eq]
        exact not_le.mpr (lt_of_lt_of_le (lt_of_not_le hx) (hx_all q hq))

/-! ### Lemmas: the last control temperature is the last programmed one -/

theorem legs_getLast (r : TempRamp)
    (hh : r.hold_times.length = r.temps.length - 1)
    (hrr : r.ramp_rates.length = r.temps.length - 1)
    (h2 : 2 ≤ r.temps.length) :
    legs r ≠ [] ∧
    ∃ lg, (legs r).getLast? = some lg ∧ lg.2.2.2 = r.temps.getLastD 0 := by
  have htail : r.temps.tail.length = r.temps.length - 1 := by simp
  have hlen_legs : (legs r).length = r.temps.length - 1 := by
    unfold legs
    rw [List.length_zip, List.length_zip, List.length_zip, hh, hrr, htail]
    rw [min_self, min_self, min_eq_right (by omega)]
  obtain ⟨a, ha⟩ : ∃ a, r.temps[r.temps.length - 2]? = some a :=
    ⟨_, List.getElem?_eq_getElem (by omega)⟩
  obtain ⟨b, hb⟩ : ∃ b, r.hold_times[r.temps.length - 2]? = some b :=
    ⟨_, List.getElem?_eq_getElem (by omega)⟩
  obtain ⟨c, hc⟩ : ∃ c, r.ramp_rates[r.temps.length - 2]? = some c :=
    ⟨_, List.getElem?_eq_getElem (by omega)⟩
  obtain ⟨d, hd⟩ : ∃ d, r.temps[r.temps.length - 1]? = some d :=
    ⟨_, List.getElem?_eq_getElem (by omega)⟩
  have hdt : r.temps.tail[r.temps.length - 2]? = some d := by
    rw [List.getElem?_tail]
    rw [(by omega : r.temps.length - 2 + 1 = r.temps.length - 1)]
    exact hd
  have hleg_elem : (legs r)[r.temps.length - 2]? = some (a, b, c, d) := by
    unfold legs
    apply List.getElem?_zip_eq_some.mpr
    refine ⟨ha, ?_⟩
    apply List.getElem?_zip_eq_some.mpr
    refine ⟨hb, ?_⟩
    apply List.getElem?_zip_eq_some.mpr
    exact ⟨hc, hdt⟩
  have hlegs_ne : legs r ≠ [] := by
    intro hcon
    rw [hcon] at hlen_legs
    simp at hlen_legs
    omega
  refine ⟨hlegs_ne, (a, b, c, d), ?_, ?_⟩
  · rw [List.getLast?_eq_getElem?, hlen_legs,
      (by omega : r.temps.length - 1 - 1 = r.temps.length - 2)]
    exact hleg_elem
  · show d = r.temps.getLastD 0
    rw [List.getLastD_eq_getLast?, List.getLast?_eq_getElem?]
    rw [hd]
    rfl

theorem control_points_getLast_temp (r : TempRamp)
    (hh : r.hold_times.length = r.temps.length - 1)
    (hrr : r.ramp_rates.length = r.temps.length - 1)
    (h2 : 2 ≤ r.temps.length) :
    ∃ z, (control_points r).getLast? = some z ∧ z.2 = r.temps.getLastD 0 := by
  obtain ⟨hlegs_ne, lg, hlg, hlg4⟩ := legs_getLast r hh hrr h2
  obtain ⟨q0, hq0, hq02, hq03⟩ := ramp_points_aux_last (legs r) 0 hlegs_ne
  have hne : (ramp_points_aux 0 (legs r)).1 ≠ [] := by
    intro hcon
    rw [hcon] at hq0
    cases hq0
  have hlg_eq : (legs r).getLast hlegs_ne = lg := by
    have h1 := List.getLast?_eq_getLast (legs r) hlegs_ne
    rw [h1] at hlg
    exact Option.some_inj.mp hlg
  have hq0_eq : (ramp_points_aux 0 (legs r)).1.getLast hne = q0 := by
    have h1 := List.getLast?_eq_getLast (ramp_points_aux 0 (legs r)).1 hne
    rw [h1] at hq0
    exact Option.some_inj.mp hq0
  rw [hlg_eq] at hq02 hq03
  have hgood : ((ramp_points_aux 0 (legs r)).1.getLast hne).1 ≠
      ((ramp_points_aux 0 (legs r)).2, r.temps.getLastD 0).1 →
      ((ramp_points_aux 0 (legs r)).1.getLast hne).2 ≠
      ((ramp_points_aux 0 (legs r)).2, r.temps.getLastD 0).2 := by
    rw [hq0_eq]
    show q0.1 ≠ (ramp_points_aux 0 (legs r)).2 → q0.2 ≠ r.temps.getLastD 0
    intro hne1 hcon
    exact hq03 (fun hc => hne1 hc.symm) (by rw [hlg4, ← hcon]; exact hq02)
  obtain ⟨z, hz, hz2⟩ := control_points_aux_last_concat (ramp_points_aux 0 (legs r)).1
    ((ramp_points_aux 0 (legs r)).2, r.temps.getLastD 0) hne hgood
  refine ⟨z, ?_, hz2⟩
  unfold control_points ramp_points
  exact hz

/-! ### Claim theorems: ramp monotonicity (C5) -/

/-- C5: for a valid `RampSpecification` (hold and rate lists one shorter
than the temperature list, rates non-negative), `control_points` has
non-decreasing times; and every subdivision emitted for a true ramp pair
(distinct times and distinct temperatures, the only case in which
`control_points` subdivides) has consecutive temperature deltas of at most
`MAX_ERROR_DURING_RAMP = 0.1` degrees C.  The time monotonicity in fact
needs no hypothesis beyond the code itself, and the delta bound holds for
every segment the code can emit. -/
theorem ramp_monotonicity (r : TempRamp)
    (hh : r.hold_times.length = r.temps.length - 1)
    (hrr : r.ramp_rates.length = r.temps.length - 1)
    (hnn : ∀ x ∈ r.ramp_rates, 0 ≤ x) :
    List.Chain' (fun a b : ℚ × ℚ => a.1 ≤ b.1) (control_points r) ∧
    (∀ t0 t1 p0 p1 : ℚ,
      List.Chain' (fun a b : ℚ × ℚ => |b.2 - a.2| ≤ MAX_ERROR_DURING_RAMP)
        (control_segment t0 t1 p0 p1)) :=
  ⟨control_points_aux_chain _ (ramp_points_chain r),
    fun t0 t1 p0 p1 => control_segment_chain_snd t0 t1 p0 p1⟩

theorem ramp_monotonicity_witness :
    List.Chain' (fun a b : ℚ × ℚ => a.1 ≤ b.1) (control_points ⟨[0, 1], [0], [1]⟩) ∧
    (∀ t0 t1 p0 p1 : ℚ,
      List.Chain' (fun a b : ℚ × ℚ => |b.2 - a.2| ≤ MAX_ERROR_DURING_RAMP)
        (control_segment t0 t1 p0 p1)) :=
  ramp_monotonicity ⟨[0, 1], [0], [1]⟩ rfl rfl
    (by intro x hx; rw [List.mem_singleton] at hx; rw [hx]; norm_num)

/-! ### Claim theorems: scheduler (C3) -/

/-- C3 (amended): on a valid specification with at least two programmed
temperatures, whenever some control point lies at or before `elapsed`, the
scheduler returns exactly the spec's "temperature of the latest control
point whose time is ≤ elapsed"; and whenever `elapsed` is at or beyond
every control point's time, it returns the last control point's
temperature, which is `temperatures[last]`.  (The original claim's further
assertion that `elapsed = 0` always yields `temperatures[0]` is false; see
the counterexample.) -/
theorem scheduler_follows_latest_point (r : TempRamp)
    (hh : r.hold_times.length = r.temps.length - 1)
    (hrr : r.ramp_rates.length = r.temps.length - 1)
    (h2 : 2 ≤ r.temps.length) (elapsed : ℚ) :
    ((∃ q ∈ control_points r, q.1 ≤ elapsed) →
      some (update_set_point (control_points r) elapsed) =
        spec_current_setpoint (control_points r) elapsed) ∧
    ((∀ q ∈ control_points r, q.1 ≤ elapsed) →
      update_set_point (control_points r) elapsed = r.temps.getLastD 0) := by
  have hchain : List.Chain' (fun a b : ℚ × ℚ => a.1 ≤ b.1) (control_points r) :=
    control_points_aux_chain _ (ramp_points_chain r)
  obtain ⟨l1, l2, hsplit, ha, hb, hfil⟩ := sorted_split (control_points r) elapsed hchain
  obtain ⟨z, hz, hz2⟩ := control_points_getLast_temp r hh hrr h2
  have hcp_ne : control_points r ≠ [] := by
    intro hcon
    rw [hcon] at hz
    cases hz
  constructor
  · rintro ⟨q, hq, hqe⟩
    have hq' : q ∈ l1 ++ l2 := by rw [← hsplit]; exact hq
    have hl1ne : l1 ≠ [] := by
      rcases List.mem_append.mp hq' with hql | hql
      · exact List.ne_nil_of_mem hql
      · exact absurd hqe (not_le.mpr (hb q hql))
    rw [hsplit, update_set_point_split l1 l2 elapsed hl1ne ha hb]
    unfold spec_current_setpoint
    have hfil' : (l1 ++ l2).filter (fun q => decide (q.1 ≤ elapsed)) = l1 := by
      rw [← hsplit, ← hfil]
    rw [hfil', List.getLast?_eq_getLast l1 hl1ne]
    rfl
  · intro hall
    have hl2nil : l2 = [] := by
      cases l2 with
      | nil => rfl
      | cons w ws =>
        have hw : w ∈ control_points r := by
          rw [hsplit]
          exact List.mem_append_right _ (List.mem_cons_self _ _)
        exact absurd (hall w hw) (not_le.mpr (hb w (List.mem_cons_self _ _)))
    rw [hl2nil, List.append_nil] at hsplit
    have hl1ne : l1 ≠ [] := by rw [← hsplit]; exact hcp_ne
    have hupd := update_set_point_split l1 [] elapsed hl1ne ha (by simp)
    rw [List.append_nil] at hupd
    rw [hsplit, hupd]
    have hzl : l1.getLast hl1ne = z := by
      have h1 := List.getLast?_eq_getLast l1 hl1ne
      rw [hsplit] at hz
      rw [h1] at hz
      exact Option.some_inj.mp hz
    rw [hzl, hz2]

theorem scheduler_follows_latest_point_witness :
    some (update_set_point (control_points ⟨[0, 1], [0], [1]⟩) (1/2)) =
      spec_current_setpoint (control_points ⟨[0, 1], [0], [1]⟩) (1/2) :=
  (scheduler_follows_latest_point ⟨[0, 1], [0], [1]⟩ rfl rfl (by norm_num) (1/2)).1
    (by with_unfolding_all decide)

/-- C3 counterexample: for the valid specification `temperatures=[25,450]`,
`holdTimes=[0]`, `rampRates=[0]` (a zero-hold, zero-rate leg), the single
computed control point is `(0, 450)`, so the scheduler at `elapsed = 0`
returns 450, not `temperatures[0] = 25` as the claim asserts. -/
theorem scheduler_zero_elapsed_cex :
    update_set_point (control_points ⟨[25, 450], [0], [0]⟩) 0 = 450 ∧
    (TempRamp.mk [25, 450] [0] [0]).temps.headD 0 = 25 ∧
    (450 : ℚ) ≠ 25 := by
  refine ⟨by with_unfolding_all decide, rfl, by norm_num⟩

/-! ### Claim theorems: the example scenario (C4)

`RampSpecification temperatures=[25,450,25]`, `holdTimes=[0,240]` minutes,
`rampRates=[8.5,0]`: one ramp 25 -> 450 at 8.5 C/min (50 minutes), a
240-minute hold at 450 ending at minute 290, and an instant (rate-0) drop
to 25 at minute 290. -/

def ramp445 : TempRamp := ⟨[25, 450, 25], [0, 240], [17/2, 0]⟩

theorem ramp445_ramp_points :
    ramp_points ramp445 = [(0, 25), (50, 450), (290, 450), (290, 25)] := by
  with_unfolding_all decide

theorem ramp445_control_points :
    control_points ramp445 = control_segment 0 50 25 450 ++ [(290, 25)] := by
  unfold control_points
  rw [ramp445_ramp_points]
  show control_segment 0 50 25 450 ++ (control_segment 50 290 450 450 ++
    (control_segment 290 290 450 25 ++ [])) = _
  have h1 : control_segment 50 290 450 450 = [] := by
    unfold control_segment
    rw [if_neg (by norm_num), if_pos rfl]
  have h2 : control_segment 290 290 450 25 = [(290, 25)] := by
    unfold control_segment
    rw [if_pos rfl]
  rw [h1, h2]
  simp

theorem ramp445_seg_head :
    (control_segment 0 50 25 450).head? = some (0, 25) :=
  control_segment_head_asc (by norm_num) (by norm_num)

theorem ramp445_seg_last :
    (control_segment 0 50 25 450).getLast? = some (50, 450) :=
  control_segment_getLast (Or.inr (by norm_num))

theorem ramp445_seg_bounds :
    ∀ q ∈ control_segment 0 50 25 450, 0 ≤ q.1 ∧ q.1 ≤ 50 :=
  control_segment_sub (by norm_num)

theorem ramp445_seg_tail_pos :
    ∀ q ∈ (control_segment 0 50 25 450).tail, 0 < q.1 :=
  control_segment_tail_gt_asc (by norm_num) (by norm_num) (by norm_num)

theorem ramp445_seg_ne :
    control_segment 0 50 25 450 ≠ [] := by
  intro hcon
  have h1 := ramp445_seg_last
  rw [hcon] at h1
  cases h1

/-- C4 counterexample: at `elapsed = 300` the ramp program (which ends at
minute 290 with an instant drop to 25) has completed, and the scheduler
returns the final temperature 25, not 450 as the claim asserts; the value
450 is only held while `50 ≤ elapsed < 290`. -/
theorem scheduler_300_cex :
    update_set_point (control_points ramp445) 300 = 25 ∧ (25 : ℚ) ≠ 450 := by
  constructor
  · rw [ramp445_control_points]
    have hne : control_segment 0 50 25 450 ++ [((290 : ℚ), (25 : ℚ))] ≠ [] := by simp
    have hsp := update_set_point_split
      (control_segment 0 50 25 450 ++ [((290 : ℚ), (25 : ℚ))]) [] 300 hne ?_ (by simp)
    · rw [List.append_nil] at hsp
      rw [hsp, List.getLast_append]
      rfl
    · intro q hq
      rcases List.mem_append.mp hq with hq | hq
      · have := (ramp445_seg_bounds q hq).2
        linarith
      · rw [List.mem_singleton] at hq
        subst hq
        norm_num
  · norm_num

/-- C4 (amended): for `temperatures=[25,450,25]`, `holdTimes=[0,240]`
minutes, `rampRates=[8.5,0]`, the scheduler over the computed control
points returns 25 at `elapsed = 0`; exactly 450 (the ramp's cap) at
`elapsed = 50`; 450 at `elapsed = 280`, inside the hold, which spans
minutes 50 to 290; and 25 — the final programmed temperature — at
`elapsed = 300`, which lies beyond the program's 290-minute end. -/
theorem scheduler_example_values :
    update_set_point (control_points ramp445) 0 = 25 ∧
    update_set_point (control_points ramp445) 50 = 450 ∧
    update_set_point (control_points ramp445) 280 = 450 ∧
    update_set_point (control_points ramp445) 300 = 25 := by
  have hseg_cons : control_segment 0 50 25 450 =
      (0, 25) :: (control_segment 0 50 25 450).tail := by
    cases hs : control_segment 0 50 25 450 with
    | nil => exact absurd hs ramp445_seg_ne
    | cons w ws =>
      have hh := ramp445_seg_head
      rw [hs] at hh
      simp only [List.head?_cons, Option.some_inj] at hh
      rw [← hh]
      rfl
  have hat_hold : ∀ e : ℚ, 50 ≤ e → e < 290 →
      update_set_point (control_points ramp445) e = 450 := by
    intro e he1 he2
    rw [ramp445_control_points]
    have hsp := update_set_point_split (control_segment 0 50 25 450)
      [((290 : ℚ), (25 : ℚ))] e ramp445_seg_ne ?_ ?_
    · rw [hsp]
      have hlast := ramp445_seg_last
      rw [List.getLast?_eq_getLast _ ramp445_seg_ne] at hlast
      rw [Option.some_inj.mp hlast]
    · intro q hq
      have := (ramp445_seg_bounds q hq).2
      linarith
    · intro q hq
      rw [List.mem_singleton] at hq
      subst hq
      exact he2
  refine ⟨?_, hat_hold 50 le_rfl (by norm_num), hat_hold 280 (by norm_num) (by norm_num),
    (scheduler_300_cex).1⟩
  · rw [ramp445_control_points, hseg_cons]
    have hshape : ((0 : ℚ), (25 : ℚ)) :: (control_segment 0 50 25 450).tail ++
        [((290 : ℚ), (25 : ℚ))] =
        [((0 : ℚ), (25 : ℚ))] ++ ((control_segment 0 50 25 450).tail ++
          [((290 : ℚ), (25 : ℚ))]) := by simp
    rw [hshape]
    have hsp := update_set_point_split [((0 : ℚ), (25 : ℚ))]
      ((control_segment 0 50 25 450).tail ++ [((290 : ℚ), (25 : ℚ))]) 0 (by simp) ?_ ?_
    · rw [hsp]
      rfl
    · intro q hq
      rw [List.mem_singleton] at hq
      subst hq
      norm_num
    · intro q hq
      rcases List.mem_append.mp hq with hq | hq
      · exact ramp445_seg_tail_pos q hq
      · rw [List.mem_singleton] at hq
        subst hq
        norm_num

/-! ### ProPar codec (mfc_controller.py)

Byte strings are lists of natural numbers below 256; ASCII text is a list
of code points.  A Python float is modelled by the 32-bit pattern of its
IEEE-754 binary32 representation, which is exactly what
`struct.pack('>f', value)` writes and `struct.unpack('>f', bytes)` reads;
only those bytes cross the protocol.  `none` models a raised exception
wherever the pure decode path can raise (every caller catches all
exceptions and returns `None`/`False`). -/

inductive PType
  | char
  | int
  | float
  | str
  | status
deriving DecidableEq

/-- `PARAM_TYPE_MAP` (mfc_controller.py lines 13-18); `'status'` is not a
key, so looking it up raises `KeyError` (modelled `none`). -/
def PARAM_TYPE_MAP : PType → Option ℕ
  | .char => some 0x00
  | .int => some 0x20
  | .float => some 0x40
  | .str => some 0x60
  | .status => none

inductive PValue
  | noneV
  | intV (n : ℤ)
  | floatV (bits : ℕ)
  | charV (n : ℤ)
  | strV (s : List ℕ)
deriving DecidableEq

/-- The value bytes appended by the write branch of `build_propar_message`
(lines 66-76): `value.to_bytes(2, 'big')` for int (OverflowError outside
0..65535), the four big-endian bytes of the float32 pattern, `value & 0xFF`
for char, and a length byte followed by the ASCII bytes for str
(`encode('ascii')` raises on non-ASCII).  `none` also covers the attribute
and type errors raised when the value's kind does not match the type. -/
def encodeWriteValue : PType → PValue → Option (List ℕ)
  | .int, .intV n =>
    if 0 ≤ n ∧ n < 65536 then some [n.toNat / 256, n.toNat % 256] else none
  | .float, .floatV bits =>
    if bits < 2 ^ 32 then
      some [bits / 2 ^ 24 % 256, bits / 2 ^ 16 % 256, bits / 2 ^ 8 % 256, bits % 256]
    else none
  | .char, .charV n => some [(n % 256).toNat]
  | .str, .strV s => if s.all (· < 128) then some ((s.length % 256) :: s) else none
  | _, _ => none

/-- One uppercase hex digit character: `'0'..'9'` then `'A'..'F'`. -/
def hexDigitChar (d : ℕ) : ℕ := if d < 10 then 48 + d else 55 + d

/-- Fuel-indexed helper computing the uppercase hex digits of `n`; the fuel
`n + 1` always suffices. -/
def hexDigitsAux : ℕ → ℕ → List ℕ
  | 0, _ => []
  | fuel + 1, n =>
    if n < 16 then [hexDigitChar n]
    else hexDigitsAux fuel (n / 16) ++ [hexDigitChar (n % 16)]

/-- The uppercase hex digits of `n`, at least one digit. -/
def hexDigitsOf (n : ℕ) : List ℕ := hexDigitsAux (n + 1) n

/-- `f"{n:02X}"`: uppercase hex, zero-padded to at least two digits. -/
def hex2 (n : ℕ) : List ℕ :=
  List.replicate (2 - (hexDigitsOf n).length) 48 ++ hexDigitsOf n

/-- Two uppercase hex digits for one byte, as produced by
`data_bytes.hex().upper()` (a `bytearray` holds only values below 256). -/
def hexByte (b : ℕ) : List ℕ := [hexDigitChar (b / 16), hexDigitChar (b % 16)]

/-- The message assembly of `build_propar_message` (lines 78-83):
`':' + f"{length:02X}" + f"{node:02X}" + data.hex().upper()` and the
trailing CR LF, as ASCII codes, with `length = 1 + len(data_bytes)`. -/
def frameMessage (node_address : ℕ) (data_bytes : List ℕ) : List ℕ :=
  [58] ++ hex2 (1 + data_bytes.length) ++ hex2 node_address ++
    data_bytes.flatMap hexByte ++ [13, 10]

/-- `build_propar_message(self, command, process, fbnr, param_type, value,
str_len)` (lines 44-83).  The read branch (command 4) writes two
process/parameter descriptor blocks, the first with index 1 describing the
reply, plus a requested length byte for strings; the write branch
(command 1) writes one descriptor block and the encoded value; any other
command frames just the command byte. -/
def build_propar_message (node_address : ℕ) (command : ℕ) (process : ℕ)
    (fbnr : ℕ) (param_type : PType) (value : PValue) (str_len : ℕ) :
    Option (List ℕ) := do
  let tcode ← PARAM_TYPE_MAP param_type
  let data_bytes ←
    if command = 4 then
      some (if param_type = .str then
        [command, process % 128, tcode ||| (1 % 32), process % 128,
          tcode ||| (fbnr % 32), str_len]
      else
        [command, process % 128, tcode ||| (1 % 32), process % 128,
          tcode ||| (fbnr % 32)])
    else if command = 1 then do
      let vb ← encodeWriteValue param_type value
      some ([command, process % 128, tcode ||| (fbnr % 32)] ++ vb)
    else some [command]
  some (frameMessage node_address data_bytes)

def isPyWs (c : ℕ) : Bool :=
  c = 32 || c = 9 || c = 10 || c = 13 || c = 11 || c = 12

/-- Python `str.strip()` over ASCII codes: whitespace removed from both
ends. -/
def pyStripList (l : List ℕ) : List ℕ :=
  ((l.dropWhile isPyWs).reverse.dropWhile isPyWs).reverse

/-- Lines 87-90: the empty-response guard and
`response_bytes.decode('ascii').strip()`; decoding raises (hence `none`)
on any byte at or above 128. -/
def decodeAsciiStrip (response_bytes : List ℕ) : Option (List ℕ) :=
  if response_bytes = [] then none
  else if response_bytes.all (· < 128) then some (pyStripList response_bytes)
  else none

def hexDigitVal (c : ℕ) : Option ℕ :=
  if 48 ≤ c ∧ c ≤ 57 then some (c - 48)
  else if 65 ≤ c ∧ c ≤ 70 then some (c - 55)
  else if 97 ≤ c ∧ c ≤ 102 then some (c - 87)
  else none

/-- `int(s, 16)` on a plain string of hex digits; the exotic forms Python's
`int` would also accept (signs, inner underscores, surrounding whitespace)
cannot occur inside a frame and decode to `none` here. -/
def parseHexNat (l : List ℕ) : Option ℕ :=
  if l = [] then none
  else l.foldl (fun acc c => acc.bind (fun a => (hexDigitVal c).map (fun d => a * 16 + d)))
    (some 0)

def fromHexPairs : List ℕ → Option (List ℕ)
  | [] => some []
  | c1 :: c2 :: rest => do
    let d1 ← hexDigitVal c1
    let d2 ← hexDigitVal c2
    let r ← fromHexPairs rest
    some ((d1 * 16 + d2) :: r)
  | [_] => none

/-- `bytes.fromhex(data_hex)` (line 101): two hex digits per byte with
ASCII whitespace skipped; anything else raises (`none`). -/
def bytes_fromhex (l : List ℕ) : Option (List ℕ) :=
  fromHexPairs (l.filter (fun c => !isPyWs c))

/-- The field extraction of lines 98-104 applied to the stripped string
with its leading ':' removed: the 2-hex-digit length field, the
2-hex-digit node id, the payload bytes from the remaining hex, and the
declared-length check `(1 + len(data_bytes)) != length`. -/
def parseFrameFields (s : List ℕ) : Option (ℕ × ℕ × List ℕ) := do
  let length ← parseHexNat (s.take 2)
  let node ← parseHexNat ((s.drop 2).take 2)
  let data_bytes ← bytes_fromhex (s.drop 4)
  if 1 + data_bytes.length ≠ length then none
  else some (length, node, data_bytes)

inductive ParseResult
  | ack
  | intVal (n : ℕ)
  | floatVal (bits : ℕ)
  | strVal (s : List ℕ)
deriving DecidableEq

def int_from_bytes_be (l : List ℕ) : ℕ := l.foldl (fun a b => a * 256 + b) 0

/-- The command dispatch of lines 106-127: a status frame (command 0)
succeeds only on status byte 0; a DataReply frame (command 2) drops the
3-byte reply header and interprets the rest per the expected type —
`int.from_bytes(value_bytes, 'big')`, a 4-byte big-endian float32, or a
length-prefixed ASCII string that is then `.strip()`ped.  There is no
branch for `char`, which therefore falls through to `None`, as does every
other command byte.  Python's IndexError on missing bytes and its decode
error on non-ASCII string bytes are `none`. -/
def parseDataPayload (data_bytes : List ℕ) (expected : PType) : Option ParseResult :=
  match data_bytes with
  | [] => none
  | command :: rest =>
    if command = 0 then
      match rest with
      | [] => none
      | status :: _ => if status = 0 then some .ack else none
    else if command = 2 then
      match expected with
      | .int => some (.intVal (int_from_bytes_be (data_bytes.drop 3)))
      | .float =>
        if (data_bytes.drop 3).length = 4 then
          some (.floatVal (int_from_bytes_be (data_bytes.drop 3)))
        else none
      | .str =>
        match data_bytes.drop 3 with
        | [] => none
        | n :: vrest =>
          if (vrest.take n).all (· < 128) then
            some (.strVal (pyStripList (vrest.take n)))
          else none
      | _ => none
    else none

/-- `parse_propar_response(self, response_bytes, expected_type)`
(lines 85-127). -/
def parse_propar_response (response_bytes : List ℕ) (expected : PType) :
    Option ParseResult := do
  let s ← decodeAsciiStrip response_bytes
  match s with
  | [] => none
  | c :: rest =>
    if c = 58 then do
      let fields ← parseFrameFields rest
      parseDataPayload fields.2.2 expected
    else none

/-- The synthetic DataReply frame of the round-trip property: a framed
payload `[0x02, process, parameter] ++ value_bytes`, i.e. the DataReply
command byte, a two-byte descriptor header, and the value encoded exactly
as `encodeWrite` encodes it. -/
def syntheticDataReply (node process param : ℕ) (value_bytes : List ℕ) : List ℕ :=
  frameMessage node ([2, process, param] ++ value_bytes)

/-! ### Lemmas: hex encoding round trip -/

theorem hexDigitChar_lt {d : ℕ} (hd : d < 16) : hexDigitChar d < 128 := by
  unfold hexDigitChar
  split_ifs <;> omega

theorem hexDigitChar_not_ws {d : ℕ} (hd : d < 16) : isPyWs (hexDigitChar d) = false := by
  unfold hexDigitChar isPyWs
  split_ifs with h10
  · simp only [Bool.or_eq_false_iff, decide_eq_false_iff_not]
    omega
  · simp only [Bool.or_eq_false_iff, decide_eq_false_iff_not]
    omega

theorem hexDigitVal_hexDigitChar {d : ℕ} (hd : d < 16) :
    hexDigitVal (hexDigitChar d) = some d := by
  unfold hexDigitVal hexDigitChar
  split_ifs <;> first | (congr 1; omega) | (exfalso; omega)

theorem hex2_eq {n : ℕ} (hn : n < 256) :
    hex2 n = [hexDigitChar (n / 16), hexDigitChar (n % 16)] := by
  unfold hex2 hexDigitsOf
  by_cases h16 : n < 16
  · have ha : hexDigitsAux (n + 1) n = [hexDigitChar n] := by
      simp only [hexDigitsAux, if_pos h16]
    rw [ha]
    have h1 : n / 16 = 0 := Nat.div_eq_of_lt h16
    have h2 : n % 16 = n := Nat.mod_eq_of_lt h16
    rw [h1, h2]
    rfl
  · obtain ⟨m, rfl⟩ : ∃ m, n = m + 1 := ⟨n - 1, by omega⟩
    have hd16 : (m + 1) / 16 < 16 := by omega
    have ha2 : hexDigitsAux (m + 1) ((m + 1) / 16) = [hexDigitChar ((m + 1) / 16)] := by
      show (if (m + 1) / 16 < 16 then [hexDigitChar ((m + 1) / 16)]
        else hexDigitsAux m ((m + 1) / 16 / 16) ++ [hexDigitChar ((m + 1) / 16 % 16)]) = _
      rw [if_pos hd16]
    have ha : hexDigitsAux (m + 1 + 1) (m + 1) =
        [hexDigitChar ((m + 1) / 16), hexDigitChar ((m + 1) % 16)] := by
      show (if m + 1 < 16 then [hexDigitChar (m + 1)]
        else hexDigitsAux (m + 1) ((m + 1) / 16) ++ [hexDigitChar ((m + 1) % 16)]) = _
      rw [if_neg h16, ha2]
      rfl
    rw [ha]
    rfl

theorem parseHexNat_hex2 {n : ℕ} (hn : n < 256) : parseHexNat (hex2 n) = some n := by
  rw [hex2_eq hn]
  unfold parseHexNat
  rw [if_neg (by simp)]
  simp only [List.foldl_cons, List.foldl_nil, Option.some_bind]
  rw [hexDigitVal_hexDigitChar (by omega : n / 16 < 16)]
  simp only [Option.map_some', Option.some_bind]
  rw [hexDigitVal_hexDigitChar (by omega : n % 16 < 16)]
  simp only [Option.map_some']
  congr 1
  omega

theorem hexByte_mem {b c : ℕ} (hb : b < 256) (hc : c ∈ hexByte b) :
    c < 128 ∧ isPyWs c = false := by
  unfold hexByte at hc
  rcases List.mem_cons.mp hc with hc | hc
  · subst hc
    exact ⟨hexDigitChar_lt (by omega), hexDigitChar_not_ws (by omega)⟩
  · rw [List.mem_singleton] at hc
    subst hc
    exact ⟨hexDigitChar_lt (by omega), hexDigitChar_not_ws (by omega)⟩

theorem fromHexPairs_flatMap : ∀ (data : List ℕ), (∀ b ∈ data, b < 256) →
    fromHexPairs (data.flatMap hexByte) = some data := by
  intro data
  induction data with
  | nil => intro _; rfl
  | cons b rest ih =>
    intro hd
    have hb : b < 256 := hd b (List.mem_cons_self _ _)
    show fromHexPairs (hexDigitChar (b / 16) :: hexDigitChar (b % 16) :: rest.flatMap hexByte)
      = some (b :: rest)
    simp only [fromHexPairs]
    rw [hexDigitVal_hexDigitChar (by omega : b / 16 < 16),
      hexDigitVal_hexDigitChar (by omega : b % 16 < 16),
      ih (fun x hx => hd x (List.mem_cons_of_mem _ hx))]
    simp only [Option.bind_eq_bind, Option.some_bind]
    congr 2
    omega

theorem bytes_fromhex_flatMap {data : List ℕ} (hd : ∀ b ∈ data, b < 256) :
    bytes_fromhex (data.flatMap hexByte) = some data := by
  unfold bytes_fromhex
  have hfil : (data.flatMap hexByte).filter (fun c => !isPyWs c) = data.flatMap hexByte := by
    apply List.filter_eq_self.mpr
    intro c hc
    obtain ⟨b, hbm, hcm⟩ := List.mem_flatMap.mp hc
    rw [(hexByte_mem (hd b hbm) hcm).2]
    rfl
  rw [hfil]
  exact fromHexPairs_flatMap data hd

theorem dropWhile_all_false {p : ℕ → Bool} : ∀ {l : List ℕ},
    (∀ c ∈ l, p c = false) → l.dropWhile p = l := by
  intro l h
  cases l with
  | nil => rfl
  | cons c rest =>
    rw [List.dropWhile_cons, if_neg (by rw [h c (List.mem_cons_self _ _)]; simp)]

theorem pyStrip_frame {mid : List ℕ} (hmid : ∀ c ∈ mid, isPyWs c = false) :
    pyStripList (58 :: (mid ++ [13, 10])) = 58 :: mid := by
  unfold pyStripList
  have h58 : isPyWs 58 = false := rfl
  rw [List.dropWhile_cons, if_neg (by rw [h58]; simp)]
  have hrev : (58 :: (mid ++ [13, 10])).reverse = 10 :: 13 :: (mid.reverse ++ [58]) := by
    simp
  rw [hrev]
  rw [List.dropWhile_cons, if_pos (by rfl), List.dropWhile_cons, if_pos (by rfl)]
  rw [dropWhile_all_false (by
    intro c hc
    rcases List.mem_append.mp hc with hc | hc
    · exact hmid c (List.mem_reverse.mp hc)
    · rw [List.mem_singleton] at hc
      subst hc
      rfl)]
  simp

theorem reply_data_bytes_lt {process param : ℕ} (hp : process < 256) (hq : param < 256)
    {vb : List ℕ} (hvb : ∀ b ∈ vb, b < 256) :
    ∀ b ∈ [2, process, param] ++ vb, b < 256 := by
  intro b hb
  rcases List.mem_append.mp hb with hb | hb
  · rcases List.mem_cons.mp hb with hb | hb
    · subst hb
      omega
    rcases List.mem_cons.mp hb with hb | hb
    · subst hb
      exact hp
    · rw [List.mem_singleton] at hb
      subst hb
      exact hq
  · exact hvb b hb

theorem parse_frameMessage {node : ℕ} (hn : node < 256) {data : List ℕ}
    (hd : ∀ b ∈ data, b < 256) (hlen : 1 + data.length < 256) (ty : PType) :
    parse_propar_response (frameMessage node data) ty = parseDataPayload data ty := by
  obtain ⟨x1, x2, hx⟩ : ∃ x1 x2, hex2 (1 + data.length) = [x1, x2] :=
    ⟨_, _, hex2_eq hlen⟩
  obtain ⟨y1, y2, hy⟩ : ∃ y1 y2, hex2 node = [y1, y2] := ⟨_, _, hex2_eq hn⟩
  have hmid_chars : ∀ c ∈ hex2 (1 + data.length) ++ hex2 node ++ data.flatMap hexByte,
      c < 128 ∧ isPyWs c = false := by
    intro c hc
    rcases List.mem_append.mp hc with hc | hc
    · rcases List.mem_append.mp hc with hc | hc
      · rw [hex2_eq hlen] at hc
        rcases List.mem_cons.mp hc with hc | hc
        · subst hc
          exact ⟨hexDigitChar_lt (by omega), hexDigitChar_not_ws (by omega)⟩
        · rw [List.mem_singleton] at hc
          subst hc
          exact ⟨hexDigitChar_lt (by omega), hexDigitChar_not_ws (by omega)⟩
      · rw [hex2_eq hn] at hc
        rcases List.mem_cons.mp hc with hc | hc
        · subst hc
          exact ⟨hexDigitChar_lt (by omega), hexDigitChar_not_ws (by omega)⟩
        · rw [List.mem_singleton] at hc
          subst hc
          exact ⟨hexDigitChar_lt (by omega), hexDigitChar_not_ws (by omega)⟩
    · obtain ⟨b, hbm, hcm⟩ := List.mem_flatMap.mp hc
      exact hexByte_mem (hd b hbm) hcm
  have hframe : frameMessage node data =
      58 :: ((hex2 (1 + data.length) ++ hex2 node ++ data.flatMap hexByte) ++ [13, 10]) := by
    unfold frameMessage
    simp [List.append_assoc]
  have hdecode : decodeAsciiStrip (frameMessage node data) =
      some (58 :: (hex2 (1 + data.length) ++ hex2 node ++ data.flatMap hexByte)) := by
    unfold decodeAsciiStrip
    rw [hframe]
    rw [if_neg (by simp)]
    rw [if_pos ?hall]
    case hall =>
      rw [List.all_eq_true]
      intro c hc
      rcases List.mem_cons.mp hc with hc | hc
      · subst hc
        norm_num
      rcases List.mem_append.mp hc with hc | hc
      · simpa using (hmid_chars c hc).1
      · rcases List.mem_cons.mp hc with hc | hc
        · subst hc
          norm_num
        · rw [List.mem_singleton] at hc
          subst hc
          norm_num
    rw [Option.some_inj]
    exact pyStrip_frame (fun c hc => (hmid_chars c hc).2)
  have hfields : parseFrameFields
      (hex2 (1 + data.length) ++ hex2 node ++ data.flatMap hexByte) =
      some (1 + data.length, node, data) := by
    unfold parseFrameFields
    have htake : (hex2 (1 + data.length) ++ hex2 node ++ data.flatMap hexByte).take 2 =
        hex2 (1 + data.length) := by
      rw [hx, hy]
      rfl
    have hdrop2 : ((hex2 (1 + data.length) ++ hex2 node ++ data.flatMap hexByte).drop 2).take 2 =
        hex2 node := by
      rw [hx, hy]
      rfl
    have hdrop4 : (hex2 (1 + data.length) ++ hex2 node ++ data.flatMap hexByte).drop 4 =
        data.flatMap hexByte := by
      rw [hx, hy]
      rfl
    rw [htake, hdrop2, hdrop4, parseHexNat_hex2 hlen, parseHexNat_hex2 hn,
      bytes_fromhex_flatMap hd]
    simp only [Option.bind_eq_bind, Option.some_bind]
    rw [if_neg (by omega)]
  unfold parse_propar_response
  rw [hdecode]
  simp only [Option.bind_eq_bind, Option.some_bind]
  rw [if_pos trivial, hfields]
  rfl

theorem parseDataPayload_reply_int (process param : ℕ) (vb : List ℕ) :
    parseDataPayload ([2, process, param] ++ vb) .int =
      some (.intVal (int_from_bytes_be vb)) := rfl

theorem parseDataPayload_reply_float (process param : ℕ) (vb : List ℕ) :
    parseDataPayload ([2, process, param] ++ vb) .float =
      (if vb.length = 4 then some (.floatVal (int_from_bytes_be vb)) else none) := rfl

theorem parseDataPayload_reply_str (process param n : ℕ) (vrest : List ℕ) :
    parseDataPayload ([2, process, param] ++ n :: vrest) .str =
      (if (vrest.take n).all (· < 128) then
        some (.strVal (pyStripList (vrest.take n)))
      else none) := rfl

theorem parseDataPayload_reply_char (process param : ℕ) (vb : List ℕ) :
    parseDataPayload ([2, process, param] ++ vb) .char = none := rfl

/-! ### Claim theorems: codec round trip (C6) -/

/-- C6 counterexample: decoding a synthetic DataReply frame carrying the
encodeWrite encoding of the byte value 7 yields no value at all — the
DataReply dispatch of `parse_propar_response` has no byte (`char`) branch
and falls through to `None` — and decoding the encoding of the string
`" a "` (space, `'a'`, space) yields `"a"` because the decoder strips
surrounding whitespace; so neither byte nor whitespace-edged string values
round-trip exactly as the claim states. -/
theorem codec_roundtrip_cex :
    encodeWriteValue .char (.charV 7) = some [7] ∧
    parse_propar_response (syntheticDataReply 3 1 1 [7]) .char = none ∧
    encodeWriteValue .str (.strV [32, 97, 32]) = some [3, 32, 97, 32] ∧
    parse_propar_response (syntheticDataReply 3 1 97 [3, 32, 97, 32]) .str =
      some (.strVal [97]) ∧
    ParseResult.strVal [97] ≠ ParseResult.strVal [32, 97, 32] := by
  refine ⟨by with_unfolding_all decide, by with_unfolding_all decide,
    by with_unfolding_all decide, by with_unfolding_all decide, by decide⟩

/-- C6 (amended): decoding a synthetic DataReply frame whose payload
carries the encodeWrite value encoding recovers the original value exactly
for int16 (2 bytes big-endian, range 0..65535) and for float32, whose
4-byte big-endian IEEE-754 bit pattern is recovered bit-for-bit (hence
within representable precision); a string (1-byte length prefix plus ASCII
bytes) is recovered up to the decoder's `.strip()`, hence exactly whenever
it has no leading or trailing whitespace; and a byte value is never
recovered — the decoder has no byte branch and reports no value. -/
theorem codec_write_roundtrip :
    (∀ n : ℤ, 0 ≤ n → n < 65536 →
      ∃ vb, encodeWriteValue .int (.intV n) = some vb ∧
        parse_propar_response (syntheticDataReply 3 1 33 vb) .int =
          some (.intVal n.toNat)) ∧
    (∀ bits : ℕ, bits < 2 ^ 32 →
      ∃ vb, encodeWriteValue .float (.floatV bits) = some vb ∧
        parse_propar_response (syntheticDataReply 3 1 65 vb) .float =
          some (.floatVal bits)) ∧
    (∀ s : List ℕ, (∀ c ∈ s, c < 128) → s.length ≤ 200 → pyStripList s = s →
      ∃ vb, encodeWriteValue .str (.strV s) = some vb ∧
        parse_propar_response (syntheticDataReply 3 1 97 vb) .str =
          some (.strVal s)) ∧
    (∀ n : ℤ, ∃ vb, encodeWriteValue .char (.charV n) = some vb ∧
      parse_propar_response (syntheticDataReply 3 1 1 vb) .char = none) := by
  refine ⟨?_, ?_, ?_, ?_⟩
  · intro n hn0 hn
    refine ⟨[n.toNat / 256, n.toNat % 256], by rw [encodeWriteValue, if_pos ⟨hn0, hn⟩], ?_⟩
    unfold syntheticDataReply
    rw [parse_frameMessage (by norm_num)
      (reply_data_bytes_lt (by norm_num) (by norm_num) (by
        intro b hb
        rcases List.mem_cons.mp hb with hb | hb
        · subst hb
          omega
        · rw [List.mem_singleton] at hb
          subst hb
          omega))
      (by simp) .int]
    rw [parseDataPayload_reply_int]
    unfold int_from_bytes_be
    simp only [List.foldl_cons, List.foldl_nil]
    congr 2
    omega
  · intro bits hb
    refine ⟨[bits / 2 ^ 24 % 256, bits / 2 ^ 16 % 256, bits / 2 ^ 8 % 256, bits % 256],
      by rw [encodeWriteValue, if_pos hb], ?_⟩
    unfold syntheticDataReply
    rw [parse_frameMessage (by norm_num)
      (reply_data_bytes_lt (by norm_num) (by norm_num) (by
        intro b hbm
        rcases List.mem_cons.mp hbm with h | hbm
        · subst h
          omega
        rcases List.mem_cons.mp hbm with h | hbm
        · subst h
          omega
        rcases List.mem_cons.mp hbm with h | hbm
        · subst h
          omega
        · rw [List.mem_singleton] at hbm
          subst hbm
          omega))
      (by simp) .float]
    rw [parseDataPayload_reply_float]
    have h4 : ([bits / 2 ^ 24 % 256, bits / 2 ^ 16 % 256, bits / 2 ^ 8 % 256,
        bits % 256] : List ℕ).length = 4 := rfl
    rw [if_pos h4]
    unfold int_from_bytes_be
    simp only [List.foldl_cons, List.foldl_nil]
    congr 2
    omega
  · intro s hs hslen hstrip
    have hsall : s.all (· < 128) = true := by
      rw [List.all_eq_true]
      intro c hc
      simpa using hs c hc
    refine ⟨(s.length % 256) :: s, by rw [encodeWriteValue, if_pos hsall], ?_⟩
    unfold syntheticDataReply
    rw [parse_frameMessage (by norm_num)
      (reply_data_bytes_lt (by norm_num) (by norm_num) (by
        intro b hbm
        rcases List.mem_cons.mp hbm with h | hbm
        · subst h
          omega
        · exact lt_trans (hs b hbm) (by norm_num)))
      (by simp only [List.length_append, List.length_cons, List.length_nil]; omega) .str]
    rw [parseDataPayload_reply_str]
    have hmod : s.length % 256 = s.length := Nat.mod_eq_of_lt (by omega)
    rw [hmod, List.take_length, if_pos hsall, hstrip]
  · intro n
    refine ⟨[(n % 256).toNat], rfl, ?_⟩
    unfold syntheticDataReply
    rw [parse_frameMessage (by norm_num)
      (reply_data_bytes_lt (by norm_num) (by norm_num) (by
        intro b hbm
        rw [List.mem_singleton] at hbm
        subst hbm
        omega))
      (by simp) .char]
    rw [parseDataPayload_reply_char]

theorem codec_write_roundtrip_witness :
    ∃ vb, encodeWriteValue .int (.intV 500) = some vb ∧
      parse_propar_response (syntheticDataReply 3 1 33 vb) .int =
        some (.intVal (500 : ℤ).toNat) :=
  codec_write_roundtrip.1 500 (by norm_num) (by norm_num)

/-! ### Claim theorems: frame rejection (C7) -/

theorem parseFrameFields_sound {s : List ℕ} {L node : ℕ} {payload : List ℕ}
    (h : parseFrameFields s = some (L, node, payload)) : L = 1 + payload.length := by
  unfold parseFrameFields at h
  cases h1 : parseHexNat (s.take 2) with
  | none => rw [h1] at h; cases h
  | some L' =>
    rw [h1] at h
    cases h2 : parseHexNat ((s.drop 2).take 2) with
    | none => rw [h2] at h; cases h
    | some node' =>
      rw [h2] at h
      cases h3 : bytes_fromhex (s.drop 4) with
      | none => rw [h3] at h; cases h
      | some data' =>
        rw [h3] at h
        simp only [Option.bind_eq_bind, Option.some_bind] at h
        by_cases h4 : 1 + data'.length ≠ L'
        · rw [if_pos h4] at h
          cases h
        · rw [if_neg h4] at h
          rw [Option.some_inj] at h
          have hL : L' = L := congrArg Prod.fst h
          have hpay : data' = payload := congrArg (fun p => p.2.2) h
          push_neg at h4
          rw [← hL, ← hpay]
          exact h4.symm

/-- C7: `parse_propar_response` returns no parsed value for any response
whose stripped form does not start with the ':' delimiter; and whenever it
does return a value, the stripped response started with ':' and its
declared 2-hex-digit length field equals 1 plus the number of decoded
payload bytes — so no frame violating either condition is ever silently
accepted. -/
theorem frame_rejection :
    (∀ (resp : List ℕ) (ty : PType),
      (∀ s, decodeAsciiStrip resp = some s → s.head? ≠ some 58) →
      parse_propar_response resp ty = none) ∧
    (∀ (resp : List ℕ) (ty : PType) (v : ParseResult),
      parse_propar_response resp ty = some v →
      ∃ s, decodeAsciiStrip resp = some s ∧ s.head? = some 58 ∧
        ∃ L node payload, parseFrameFields s.tail = some (L, node, payload) ∧
          L = 1 + payload.length) := by
  constructor
  · intro resp ty hcolon
    unfold parse_propar_response
    cases hdec : decodeAsciiStrip resp with
    | none => rfl
    | some s =>
      cases s with
      | nil => rfl
      | cons c rest =>
        have hc : ¬ c = 58 := by
          intro hcon
          exact hcolon (c :: rest) hdec (by rw [hcon]; rfl)
        simp only [Option.bind_eq_bind, Option.some_bind]
        rw [if_neg hc]
  · intro resp ty v hv
    unfold parse_propar_response at hv
    cases hdec : decodeAsciiStrip resp with
    | none => rw [hdec] at hv; cases hv
    | some s =>
      rw [hdec] at hv
      cases s with
      | nil => cases hv
      | cons c rest =>
        simp only [Option.bind_eq_bind, Option.some_bind] at hv
        by_cases hc : c = 58
        · rw [if_pos hc] at hv
          cases hff : parseFrameFields rest with
          | none => rw [hff] at hv; cases hv
          | some fields =>
            obtain ⟨L, node, payload⟩ := fields
            exact ⟨c :: rest, rfl, by rw [hc]; rfl, L, node, payload, hff,
              parseFrameFields_sound hff⟩
        · rw [if_neg hc] at hv
          cases hv

theorem frame_rejection_witness :
    ∃ s, decodeAsciiStrip (frameMessage 3 [0, 0]) = some s ∧ s.head? = some 58 ∧
      ∃ L node payload, parseFrameFields s.tail = some (L, node, payload) ∧
        L = 1 + payload.length :=
  frame_rejection.2 (frameMessage 3 [0, 0]) .status .ack (by with_unfolding_all decide)

/-! ### Claim theorems: safety supervisor -/

/-- C1: `check_safety_conditions` is a no-op whenever the supervisor is in
maintenance mode or already triggered; otherwise, whenever any of the three
readings is at least 750 it flips to triggered and emits the shutdown
action set; in particular `evaluate(760, 400, 500)` from Active triggers,
and a second call with the same readings while Triggered emits nothing. -/
theorem safety_evaluate_spec :
    (∀ (s : SafetyState) (it et sp : ℚ),
        s.maintenance_mode = true ∨ s.safety_triggered = true →
        check_safety_conditions s it et sp = (s, none)) ∧
    (∀ (s : SafetyState) (it et sp : ℚ),
        s.maintenance_mode = false → s.safety_triggered = false →
        750 ≤ it ∨ 750 ≤ et ∨ 750 ≤ sp →
        check_safety_conditions s it et sp =
          ({ s with safety_triggered := true }, some trigger_actions)) ∧
    check_safety_conditions ⟨false, false⟩ 760 400 500 =
      (⟨false, true⟩, some trigger_actions) ∧
    check_safety_conditions ⟨false, true⟩ 760 400 500 = (⟨false, true⟩, none) := by
  refine ⟨?_, ?_, by decide, by decide⟩
  · intro s it et sp h
    unfold check_safety_conditions
    rcases h with h | h <;> simp [h]
  · intro s it et sp hm ht hthr
    unfold check_safety_conditions
    simp [hm, ht, hthr]

theorem safety_evaluate_spec_witness :
    check_safety_conditions ⟨true, false⟩ 0 0 0 = (⟨true, false⟩, none) :=
  safety_evaluate_spec.1 ⟨true, false⟩ 0 0 0 (Or.inl rfl)

/-- C2: evaluating the code at a triggering input shows that the emitted
shutdown action set commands the CO2 channel (node 3, a reactive gas) to
50 sccm, not 0 sccm — even though the surrounding comment, the notification
dialog, and the alert email of the same file all state that the CO2 flow is
set to 0.  N2 goes to 100 sccm and the temperature setpoint to 20 C as
claimed. -/
theorem safety_shutdown_co2_flow :
    (check_safety_conditions ⟨false, false⟩ 760 400 500).2 = some trigger_actions ∧
    trigger_actions.co2_flow = 50 ∧
    trigger_actions.h2_flow = 0 ∧
    trigger_actions.n2_flow = 100 ∧
    trigger_actions.temp_setpoint = 20 := by
  refine ⟨by decide, rfl, rfl, rfl, rfl⟩

/-! ### Claim theorems: flow starvation episodes -/

theorem check_flow_step_low (now flow sp t0 : ℚ) (a : Bool)
    (hsp : 0 < sp) (hf : flow < 9/10 * sp) :
    check_flow_step false now flow sp ⟨some t0, a⟩ =
      if 60 < now - t0 then
        (if a then (⟨some t0, a⟩, false) else (⟨some t0, true⟩, true))
      else (⟨some t0, a⟩, false) := by
  cases a <;> simp [check_flow_step, hsp, hf]

theorem run_flow_checks_low_alerted (t0 : ℚ) (obs : List (ℚ × ℚ × ℚ))
    (hlow : ∀ o ∈ obs, 0 < o.2.2 ∧ o.2.1 < 9/10 * o.2.2) :
    run_flow_checks false obs ⟨some t0, true⟩ = (⟨some t0, true⟩, 0) := by
  induction obs with
  | nil => rfl
  | cons o rest ih =>
    obtain ⟨t, f, sp⟩ := o
    obtain ⟨hsp, hf⟩ := hlow (t, f, sp) (List.mem_cons_self _ _)
    have hrest := fun o ho => hlow o (List.mem_cons_of_mem _ ho)
    simp only [run_flow_checks, check_flow_step_low t f sp t0 true hsp hf]
    by_cases h60 : 60 < t - t0 <;> simp [h60, ih hrest]

theorem run_flow_checks_low_episode (t0 : ℚ) (obs : List (ℚ × ℚ × ℚ))
    (hlow : ∀ o ∈ obs, 0 < o.2.2 ∧ o.2.1 < 9/10 * o.2.2) :
    run_flow_checks false obs ⟨some t0, false⟩ =
      (⟨some t0, obs.any (fun o => decide (60 < o.1 - t0))⟩,
        if obs.any (fun o => decide (60 < o.1 - t0)) then 1 else 0) := by
  induction obs with
  | nil => rfl
  | cons o rest ih =>
    obtain ⟨t, f, sp⟩ := o
    obtain ⟨hsp, hf⟩ := hlow (t, f, sp) (List.mem_cons_self _ _)
    have hrest := fun o ho => hlow o (List.mem_cons_of_mem _ ho)
    simp only [run_flow_checks, check_flow_step_low t f sp t0 false hsp hf]
    by_cases h60 : 60 < t - t0
    · simp [h60, run_flow_checks_low_alerted t0 rest hrest]
    · simp only [if_neg h60]
      rw [ih hrest]
      simp only [List.any_cons, decide_eq_false h60, Bool.false_or]
      simp

/-- C9: for a channel with positive setpoint whose measured flow stays below
`0.9 * setpoint` for a whole run of polls, at most one notification is sent;
exactly one is sent when some poll of the run happens more than 60 seconds
after the first low poll; and a single observation of
`measuredFlow >= 0.9 * setpoint` resets the alert state to its initial
value (permitting a future notification) without emitting anything. -/
theorem flow_starvation_episode (first : ℚ × ℚ × ℚ) (obs : List (ℚ × ℚ × ℚ))
    (hlow : ∀ o ∈ first :: obs, 0 < o.2.2 ∧ o.2.1 < 9/10 * o.2.2) :
    (run_flow_checks false (first :: obs) initFlowAlertState).2 ≤ 1 ∧
    ((∃ o ∈ obs, 60 < o.1 - first.1) →
      (run_flow_checks false (first :: obs) initFlowAlertState).2 = 1) ∧
    (∀ (s : FlowAlertState) (now flow sp : ℚ), 0 < sp → 9/10 * sp ≤ flow →
      check_flow_step false now flow sp s = (initFlowAlertState, false)) := by
  obtain ⟨t1, f1, sp1⟩ := first
  obtain ⟨hsp, hf⟩ := hlow (t1, f1, sp1) (List.mem_cons_self _ _)
  have hrest : ∀ o ∈ obs, 0 < o.2.2 ∧ o.2.1 < 9/10 * o.2.2 :=
    fun o ho => hlow o (List.mem_cons_of_mem _ ho)
  have hfirst : check_flow_step false t1 f1 sp1 initFlowAlertState =
      (⟨some t1, false⟩, false) := by
    simp [check_flow_step, initFlowAlertState, hsp, hf]
  have hstep : run_flow_checks false ((t1, f1, sp1) :: obs) initFlowAlertState =
      ((run_flow_checks false obs ⟨some t1, false⟩).1,
        (run_flow_checks false obs ⟨some t1, false⟩).2) := by
    simp [run_flow_checks, hfirst]
  rw [run_flow_checks_low_episode t1 obs hrest] at hstep
  refine ⟨?_, ?_, ?_⟩
  · rw [hstep]
    by_cases h : obs.any (fun o => decide (60 < o.1 - t1)) <;> simp [h]
  · intro ⟨o, ho, h60⟩
    rw [hstep]
    have hany : obs.any (fun o => decide (60 < o.1 - t1)) = true :=
      List.any_eq_true.mpr ⟨o, ho, by simpa using h60⟩
    simp [hany]
  · intro s now flow sp hsp' hge
    simp [check_flow_step, hsp', not_lt.mpr hge]

theorem flow_starvation_episode_witness :
    (run_flow_checks false [(0, 1, 10), (100, 1, 10)] initFlowAlertState).2 ≤ 1 ∧
    ((∃ o ∈ [((100 : ℚ), (1 : ℚ), (10 : ℚ))], 60 < o.1 - (0 : ℚ)) →
      (run_flow_checks false [(0, 1, 10), (100, 1, 10)] initFlowAlertState).2 = 1) ∧
    (∀ (s : FlowAlertState) (now flow sp : ℚ), 0 < sp → 9/10 * sp ≤ flow →
      check_flow_step false now flow sp s = (initFlowAlertState, false)) :=
  flow_starvation_episode (0, 1, 10) [(100, 1, 10)] (by with_unfolding_all decide)

/-! ### Claim theorems: failure-masking flow reads -/

/-- C10: when the underlying parameter read fails (returns `None`), both
`get_current_flow` and `get_current_setpoint` return `0.0`, and this is the
same value returned for a successful read of a zero flow or zero setpoint,
so the two situations are indistinguishable at the public interface. -/
theorem read_failure_returns_zero :
    (∀ capacity : ℚ, get_current_flow capacity none = 0) ∧
    (∀ capacity : ℚ, get_current_setpoint capacity none = 0) ∧
    (∀ capacity : ℚ,
      get_current_flow capacity (some 0) = get_current_flow capacity none) ∧
    (∀ capacity : ℚ,
      get_current_setpoint capacity (some 0) = get_current_setpoint capacity none) := by
  refine ⟨fun c => rfl, fun c => rfl, fun c => ?_, fun c => ?_⟩ <;>
    simp [get_current_flow, get_current_setpoint]

end FlowReactor

/-! ### Alicat `set_flow` retry loop (instruments.py, lines 98-129)

`SerialMFCController.set_flow` loops `for attempt in range(max_retries)`:
it writes the setpoint command, reads `response = self.ser.readline().strip()`,
raises `ValueError` if the response is empty, parses it with
`MFCStatus.parse_raw_response` (which raises `ValueError` on a malformed
response), raises `ValueError` if `abs(status.setpoint - flow_rate) >= 0.01`,
and otherwise returns the status.  A raised error on the last attempt
(`attempt == max_retries - 1`) is wrapped in a `RuntimeError` naming
`max_retries` and the last error; on an earlier attempt the loop sleeps
0.1 s and retries.  The serial transport is modelled as a function from the
attempt index to the stripped `readline()` bytes, and
`MFCStatus.parse_raw_response` as a function from those bytes to
`Option MFCStatus` (`none` models a raised `ValueError`).  `set_flow`
returns the result together with the number of attempts made and the
number of 0.1 s sleeps performed. -/

structure MFCStatus where
  channel : List ℕ
  abs_pressure : ℚ
  temperature : ℚ
  volumetric_flow : ℚ
  standard_mass_flow : ℚ
  setpoint : ℚ
  gas_type : List ℕ
deriving DecidableEq

inductive SetFlowError
  | emptyResponse (attempt max_retries : ℕ)
  | parseError (response : List ℕ)
  | setpointMismatch (expected got : ℚ) (attempt max_retries : ℕ)
deriving DecidableEq

inductive SetFlowResult
  | ok (status : MFCStatus)
  | failed (max_retries : ℕ) (last_error : SetFlowError)
  | noAttempt
deriving DecidableEq

def attempt_once (parse : List ℕ → Option MFCStatus) (flow_rate : ℚ)
    (max_retries attempt : ℕ) (response : List ℕ) :
    Except SetFlowError MFCStatus :=
  if response = [] then .error (.emptyResponse (attempt + 1) max_retries)
  else
    match parse response with
    | none => .error (.parseError response)
    | some status =>
      if 1/100 ≤ |status.setpoint - flow_rate| then
        .error (.setpointMismatch flow_rate status.setpoint (attempt + 1) max_retries)
      else .ok status

def set_flow_aux (parse : List ℕ → Option MFCStatus) (responses : ℕ → List ℕ)
    (flow_rate : ℚ) (max_retries : ℕ) : ℕ → ℕ → SetFlowResult × ℕ × ℕ
  | _, 0 => (.noAttempt, 0, 0)
  | attempt, remaining + 1 =>
    match attempt_once parse flow_rate max_retries attempt (responses attempt) with
    | .ok status => (.ok status, 1, 0)
    | .error e =>
      if attempt = max_retries - 1 then (.failed max_retries e, 1, 0)
      else
        match set_flow_aux parse responses flow_rate max_retries (attempt + 1) remaining with
        | (r, a, s) => (r, a + 1, s + 1)

def set_flow (parse : List ℕ → Option MFCStatus) (responses : ℕ → List ℕ)
    (flow_rate : ℚ) (max_retries : ℕ) : SetFlowResult × ℕ × ℕ :=
  set_flow_aux parse responses flow_rate max_retries 0 max_retries

theorem set_flow_aux_ok (parse : List ℕ → Option MFCStatus) (responses : ℕ → List ℕ)
    (flow_rate : ℚ) (max_retries : ℕ) (status : MFCStatus) :
    ∀ (k attempt remaining : ℕ), attempt + remaining = max_retries →
      attempt + k < max_retries →
      (∀ i, i < k → (attempt_once parse flow_rate max_retries (attempt + i)
          (responses (attempt + i))).toOption = none) →
      attempt_once parse flow_rate max_retries (attempt + k)
          (responses (attempt + k)) = .ok status →
      set_flow_aux parse responses flow_rate max_retries attempt remaining =
        (.ok status, k + 1, k)
  | 0, attempt, remaining, hsum, hlt, _, hok => by
    obtain ⟨r, rfl⟩ : ∃ r, remaining = r + 1 := by
      cases remaining with
      | zero => omega
      | succ r => exact ⟨r, rfl⟩
    unfold set_flow_aux
    rw [Nat.add_zero] at hok
    rw [hok]
  | k + 1, attempt, remaining, hsum, hlt, herr, hok => by
    obtain ⟨r, rfl⟩ : ∃ r, remaining = r + 1 := by
      cases remaining with
      | zero => omega
      | succ r => exact ⟨r, rfl⟩
    unfold set_flow_aux
    have h0 := herr 0 (Nat.succ_pos k)
    rw [Nat.add_zero] at h0
    cases hcase : attempt_once parse flow_rate max_retries attempt (responses attempt) with
    | ok s =>
      rw [hcase] at h0
      simp [Except.toOption] at h0
    | error e =>
      show (if attempt = max_retries - 1 then (SetFlowResult.failed max_retries e, 1, 0)
          else match set_flow_aux parse responses flow_rate max_retries (attempt + 1) r with
            | (r, a, s) => (r, a + 1, s + 1)) =
        (SetFlowResult.ok status, k + 1 + 1, k + 1)
      rw [if_neg (by omega : ¬ attempt = max_retries - 1)]
      have ih := set_flow_aux_ok parse responses flow_rate max_retries status k
        (attempt + 1) r (by omega) (by omega)
        (fun i hi => by
          have h := herr (i + 1) (by omega)
          rwa [show attempt + (i + 1) = attempt + 1 + i by omega] at h)
        (by rwa [show attempt + (k + 1) = attempt + 1 + k by omega] at hok)
      rw [ih]

theorem set_flow_aux_fail (parse : List ℕ → Option MFCStatus) (responses : ℕ → List ℕ)
    (flow_rate : ℚ) (max_retries : ℕ) (elast : SetFlowError) :
    ∀ (remaining attempt : ℕ), attempt + remaining = max_retries → 0 < remaining →
      (∀ i, attempt ≤ i → i < max_retries →
        (attempt_once parse flow_rate max_retries i (responses i)).toOption = none) →
      attempt_once parse flow_rate max_retries (max_retries - 1)
          (responses (max_retries - 1)) = .error elast →
      set_flow_aux parse responses flow_rate max_retries attempt remaining =
        (.failed max_retries elast, remaining, remaining - 1)
  | 0, _, _, hpos, _, _ => absurd hpos (by omega)
  | 1, attempt, hsum, _, herr, hlast => by
    unfold set_flow_aux
    have ha : attempt = max_retries - 1 := by omega
    rw [ha, hlast]
    show (if max_retries - 1 = max_retries - 1 then
          (SetFlowResult.failed max_retries elast, 1, 0)
        else match set_flow_aux parse responses flow_rate max_retries
            (max_retries - 1 + 1) 0 with
          | (r, a, s) => (r, a + 1, s + 1)) =
      (SetFlowResult.failed max_retries elast, 1, 0)
    rw [if_pos rfl]
  | remaining + 2, attempt, hsum, _, herr, hlast => by
    unfold set_flow_aux
    have h0 := herr attempt le_rfl (by omega)
    cases hcase : attempt_once parse flow_rate max_retries attempt (responses attempt) with
    | ok s =>
      rw [hcase] at h0
      simp [Except.toOption] at h0
    | error e =>
      show (if attempt = max_retries - 1 then (SetFlowResult.failed max_retries e, 1, 0)
          else match set_flow_aux parse responses flow_rate max_retries
              (attempt + 1) (remaining + 1) with
            | (r, a, s) => (r, a + 1, s + 1)) =
        (SetFlowResult.failed max_retries elast, remaining + 2, remaining + 2 - 1)
      rw [if_neg (by omega : ¬ attempt = max_retries - 1)]
      have ih := set_flow_aux_fail parse responses flow_rate max_retries elast
        (remaining + 1) (attempt + 1) (by omega) (by omega)
        (fun i h1 h2 => herr i (by omega) h2) hlast
      rw [ih]
      show (SetFlowResult.failed max_retries elast, remaining + 1 + 1,
          remaining + 1 - 1 + 1) =
        (SetFlowResult.failed max_retries elast, remaining + 2, remaining + 2 - 1)
      rw [Prod.mk.injEq, Prod.mk.injEq]
      exact ⟨rfl, by omega, by omega⟩

instance : DecidableEq (Except SetFlowError MFCStatus)
  | .error a, .error b =>
    if h : a = b then .isTrue (by rw [h])
    else .isFalse (fun hc => h (by injection hc))
  | .error a, .ok y => .isFalse (fun hc => Except.noConfusion hc)
  | .ok x, .error b => .isFalse (fun hc => Except.noConfusion hc)
  | .ok x, .ok y =>
    if h : x = y then .isTrue (by rw [h])
    else .isFalse (fun hc => h (by injection hc))

/-- C8: `set_flow` succeeds and returns an attempt's parsed status as soon as
that attempt's echoed setpoint is within the absolute tolerance 0.01 of the
target (an attempt succeeds exactly when the response is non-empty, parses,
and `|status.setpoint - flow_rate| < 0.01`, the code's reading of the
tolerance check `abs(status.setpoint - flow_rate) >= 0.01` raising); on an
empty response, a malformed response, or a tolerance failure it retries —
after `k` failed attempts followed by one in-tolerance attempt it returns
that attempt's status having made `k + 1` attempts and slept the 0.1 s
inter-attempt delay `k` times, so at most `max_retries - 1` retries ever
occur; and under persistent failure it stops after exactly `max_retries`
attempts (with `max_retries - 1` sleeps) with the single aggregated
`RuntimeError` naming `max_retries` and the last underlying error. -/
theorem set_flow_retry_contract :
    (∀ (parse : List ℕ → Option MFCStatus) (flow_rate : ℚ)
        (max_retries attempt : ℕ) (response : List ℕ) (status : MFCStatus),
      attempt_once parse flow_rate max_retries attempt response = .ok status ↔
        response ≠ [] ∧ parse response = some status ∧
          |status.setpoint - flow_rate| < 1/100) ∧
    (∀ (parse : List ℕ → Option MFCStatus) (responses : ℕ → List ℕ)
        (flow_rate : ℚ) (max_retries k : ℕ) (status : MFCStatus),
      k < max_retries →
      (∀ i, i < k →
        (attempt_once parse flow_rate max_retries i (responses i)).toOption = none) →
      attempt_once parse flow_rate max_retries k (responses k) = .ok status →
      set_flow parse responses flow_rate max_retries = (.ok status, k + 1, k)) ∧
    (∀ (parse : List ℕ → Option MFCStatus) (responses : ℕ → List ℕ)
        (flow_rate : ℚ) (max_retries : ℕ) (elast : SetFlowError),
      0 < max_retries →
      (∀ i, i < max_retries →
        (attempt_once parse flow_rate max_retries i (responses i)).toOption = none) →
      attempt_once parse flow_rate max_retries (max_retries - 1)
          (responses (max_retries - 1)) = .error elast →
      set_flow parse responses flow_rate max_retries =
        (.failed max_retries elast, max_retries, max_retries - 1)) := by
  refine ⟨?_, ?_, ?_⟩
  · intro parse flow_rate max_retries attempt response status
    unfold attempt_once
    by_cases hr : response = []
    · simp [hr]
    · rw [if_neg hr]
      cases hp : parse response with
      | none =>
        simp
      | some st =>
        show (if 1/100 ≤ |st.setpoint - flow_rate| then
            Except.error (SetFlowError.setpointMismatch flow_rate st.setpoint
              (attempt + 1) max_retries)
          else Except.ok st) = Except.ok status ↔
          response ≠ [] ∧ some st = some status ∧
            |status.setpoint - flow_rate| < 1/100
        by_cases htol : 1/100 ≤ |st.setpoint - flow_rate|
        · rw [if_pos htol]
          constructor
          · intro h
            cases h
          · rintro ⟨-, hst, hlt⟩
            rw [Option.some_inj] at hst
            subst hst
            exact absurd hlt (not_lt.mpr htol)
        · rw [if_neg htol]
          push_neg at htol
          constructor
          · intro h
            rw [Except.ok.injEq] at h
            subst h
            exact ⟨hr, rfl, htol⟩
          · rintro ⟨-, hst, -⟩
            rw [Option.some_inj] at hst
            rw [hst]
  · intro parse responses flow_rate max_retries k status hk herr hok
    unfold set_flow
    exact set_flow_aux_ok parse responses flow_rate max_retries status k 0 max_retries
      (by omega) (by omega) (fun i hi => by simpa using herr i hi) (by simpa using hok)
  · intro parse responses flow_rate max_retries elast hpos herr hlast
    unfold set_flow
    exact set_flow_aux_fail parse responses flow_rate max_retries elast max_retries 0
      (by omega) hpos (fun i _ h2 => herr i h2) hlast

theorem set_flow_retry_contract_witness :
    set_flow
        (fun r => if r = [49] then some ⟨[65], 14, 25, 5, 5, 5, [78]⟩
          else some ⟨[65], 14, 25, 0, 0, 0, [78]⟩)
        (fun i => if i < 2 then [50] else [49]) 5 3 =
      (.ok ⟨[65], 14, 25, 5, 5, 5, [78]⟩, 3, 2) ∧
    set_flow (fun _ => none) (fun _ => [50]) 5 3 =
      (.failed 3 (.parseError [50]), 3, 2) := by
  constructor
  · exact set_flow_retry_contract.2.1
      (fun r => if r = [49] then some ⟨[65], 14, 25, 5, 5, 5, [78]⟩
        else some ⟨[65], 14, 25, 0, 0, 0, [78]⟩)
      (fun i => if i < 2 then [50] else [49]) 5 3 2 ⟨[65], 14, 25, 5, 5, 5, [78]⟩
      (by norm_num) (by with_unfolding_all decide) (by with_unfolding_all decide)
  · exact set_flow_retry_contract.2.2 (fun _ => none) (fun _ => [50]) 5 3
      (.parseError [50]) (by norm_num) (by with_unfolding_all decide)
      (by with_unfolding_all decide)
